import Mathlib

/-!
Verification of the data-transformation core of the Student-Marks-Analysis-Dashboard
repository (src/utils/data_utils.py), as a shallow embedding in Lean 4.

Modelling conventions:
* numbers are modelled by `ℚ`; a pandas cell that may be `NaN` is `Option ℚ`
  (`none` is `NaN`);
* `round(x, 2)` and `Series.round(2)` round half to even (Python 3 and numpy);
* `astype(int)` truncates toward zero;
* fallible parsing returns `Option`.
-/

namespace StudentMarks

/-! ### Rounding primitives -/

/-- Round half to even to the nearest integer, as Python 3 `round` and numpy
`Series.round` do. -/
def rint (q : ℚ) : ℤ :=
  if q - ⌊q⌋ < 1/2 then ⌊q⌋
  else if 1/2 < q - ⌊q⌋ then ⌊q⌋ + 1
  else if ⌊q⌋ % 2 = 0 then ⌊q⌋ else ⌊q⌋ + 1

/-- Python `round(x, 2)`. -/
def round2 (q : ℚ) : ℚ := (rint (q * 100) : ℚ) / 100

/-- Python `round(x, 2)` on a possibly-NaN value; `round(nan, 2)` is `nan`. -/
def round2? (q : Option ℚ) : Option ℚ := q.map round2

/-- pandas `astype(int)` on a finite float: truncation toward zero. -/
def trunc (q : ℚ) : ℤ := if 0 ≤ q then ⌊q⌋ else ⌈q⌉

theorem rint_le_of_le {q : ℚ} {B : ℤ} (h : q ≤ B) : rint q ≤ B := by
  unfold rint
  have hfq : ((⌊q⌋ : ℤ) : ℚ) ≤ q := Int.floor_le q
  have hfB : ⌊q⌋ ≤ B := by
    have := Int.floor_le_floor h
    simpa using this
  split
  · exact hfB
  · rename_i h1
    push_neg at h1
    have hhalf : ((⌊q⌋ : ℤ) : ℚ) + 1/2 ≤ q := by linarith
    have hlt : ((⌊q⌋ : ℤ) : ℚ) < B := by linarith
    have hfB2 : ⌊q⌋ < B := by exact_mod_cast hlt
    split
    · omega
    · split <;> omega

theorem le_rint_of_le {q : ℚ} {A : ℤ} (h : (A : ℚ) ≤ q) : A ≤ rint q := by
  unfold rint
  have hA : A ≤ ⌊q⌋ := Int.le_floor.mpr h
  split
  · exact hA
  · split
    · omega
    · split <;> omega

theorem round2_nonneg {q : ℚ} (h : 0 ≤ q) : 0 ≤ round2 q := by
  unfold round2
  have h1 : ((0 : ℤ) : ℚ) ≤ q * 100 := by push_cast; nlinarith
  have h2 : (0 : ℤ) ≤ rint (q * 100) := le_rint_of_le h1
  positivity

theorem round2_le_100 {q : ℚ} (h : q ≤ 100) : round2 q ≤ 100 := by
  unfold round2
  have h1 : q * 100 ≤ ((10000 : ℤ) : ℚ) := by push_cast; nlinarith
  have h2 : rint (q * 100) ≤ (10000 : ℤ) := rint_le_of_le h1
  have h3 : (rint (q * 100) : ℚ) ≤ 10000 := by exact_mod_cast h2
  linarith

/-! ### The grade function -/

/-- An argument passed through Python `float(pct)` inside `grade_from_percentage`:
either a real number, the float `nan` (every `>=` comparison with `nan` is false),
or a value on which `float` raises. -/
inductive PyVal where
  | num (q : ℚ)
  | nan
  | notNum
deriving DecidableEq

/-- The function `grade_from_percentage` (src/utils/data_utils.py, lines 43-55): inclusive
lower-bound thresholds after coercion by `float`; unparseable input returns
"N/A"; `nan` fails every threshold test and falls through to "F". -/
def grade_from_percentage : PyVal → String
  | .notNum => "N/A"
  | .nan => "F"
  | .num pct =>
    if pct ≥ 90 then "A+"
    else if pct ≥ 80 then "A"
    else if pct ≥ 70 then "B+"
    else if pct ≥ 60 then "B"
    else if pct ≥ 50 then "C"
    else if pct ≥ 40 then "D"
    else "F"

/-- C1: grade_from_percentage maps percentages by inclusive lower bounds
(pct>=90 to "A+", >=80 to "A", >=70 to "B+", >=60 to "B", >=50 to "C",
>=40 to "D", lower values to "F"), boundary values belong to the higher grade,
non-numeric or unparseable input yields "N/A" without raising, and in particular
grade 90 = "A+", grade 89.99 = "A", grade 40 = "D", grade 39.99 = "F". -/
theorem grade_from_percentage_spec :
    (∀ q : ℚ,
      (grade_from_percentage (.num q) = "A+" ↔ 90 ≤ q) ∧
      (grade_from_percentage (.num q) = "A" ↔ 80 ≤ q ∧ q < 90) ∧
      (grade_from_percentage (.num q) = "B+" ↔ 70 ≤ q ∧ q < 80) ∧
      (grade_from_percentage (.num q) = "B" ↔ 60 ≤ q ∧ q < 70) ∧
      (grade_from_percentage (.num q) = "C" ↔ 50 ≤ q ∧ q < 60) ∧
      (grade_from_percentage (.num q) = "D" ↔ 40 ≤ q ∧ q < 50) ∧
      (grade_from_percentage (.num q) = "F" ↔ q < 40)) ∧
    grade_from_percentage .notNum = "N/A" ∧
    grade_from_percentage (.num 90) = "A+" ∧
    grade_from_percentage (.num (8999/100)) = "A" ∧
    grade_from_percentage (.num 40) = "D" ∧
    grade_from_percentage (.num (3999/100)) = "F" := by
  refine ⟨fun q => ?_, by decide, by norm_num [grade_from_percentage],
    by norm_num [grade_from_percentage], by norm_num [grade_from_percentage],
    by norm_num [grade_from_percentage]⟩
  simp only [grade_from_percentage]
  split_ifs with h1 h2 h3 h4 h5 h6 <;>
    refine ⟨?_, ?_, ?_, ?_, ?_, ?_, ?_⟩ <;>
    constructor <;> intro hx <;>
    first
      | rfl
      | (exfalso; revert hx; decide)
      | (constructor <;> linarith)
      | linarith

/-! ### compute_student_aggregates -/

/-- A marks table for the aggregator: the ordered column names of the frame and
its rows.  A row maps a column name to its cell (`none` is `NaN`). -/
structure MarksDF where
  cols : List String
  rows : List (String → Option ℚ)

/-- Cell of column `s` in row `r` after the fill loop of
`compute_student_aggregates` (lines 25-27): a requested subject column that is
absent from the frame is created holding `0.0` in every row. -/
def MarksDF.getV (df : MarksDF) (r : String → Option ℚ) (s : String) : Option ℚ :=
  if s ∈ df.cols then r s else some 0

/-- Row sum of the subject columns.  `fillna(0.0)` followed by `sum(axis=1)`
(line 29-30, zero-fill) and `sum(axis=1, skipna=True)` (line 34, skip-missing)
are the same pointwise function: missing cells contribute 0. -/
def rowTotal (df : MarksDF) (scols : List String) (r : String → Option ℚ) : ℚ :=
  (scols.map fun s => (df.getV r s).getD 0).sum

/-- Line 35, `df[subject_cols].count(axis=1)`: non-NaN subject cells of a row. -/
def rowCount (df : MarksDF) (scols : List String) (r : String → Option ℚ) : ℕ :=
  (scols.filter fun s => (df.getV r s).isSome).length

/-- Zero-fill percentage (lines 30-32): `total / max_total * 100` with
`max_total = 100 * len(subject_cols)`; it is `NaN` (0/0 in pandas) exactly when
`subject_cols` is empty. -/
def pctZF (df : MarksDF) (scols : List String) (r : String → Option ℚ) : Option ℚ :=
  if scols.length = 0 then none
  else some (rowTotal df scols r / (100 * scols.length) * 100)

/-- Skip-missing percentage (lines 34-37): `total / (counts * 100) * 100`
followed by `fillna(0)`; the division is `NaN` exactly when `counts = 0`, and
that `NaN` is replaced by 0. -/
def pctSM (df : MarksDF) (scols : List String) (r : String → Option ℚ) : ℚ :=
  if rowCount df scols r = 0 then 0
  else rowTotal df scols r / (rowCount df scols r * 100) * 100

/-- The derived columns of one output row of `compute_student_aggregates`. -/
structure AggRow where
  total : ℤ
  percentage : Option ℚ
  grade : String
deriving DecidableEq

/-- Line 40, `df["Percentage"].apply(grade_from_percentage)` on one possibly-NaN cell:
a `NaN` percentage reaches `grade_from_percentage` as the float `nan`. -/
def gradeOfCell (p : Option ℚ) : String :=
  grade_from_percentage (match p with | some q => .num q | none => .nan)

/-- The function `compute_student_aggregates` (lines 22-41): the derived `Total`,
`Percentage` and `Grade` columns, row by row.  `Total` is `astype(int)` of the
row sum (line 38), `Percentage` is rounded to 2 decimals (line 39), and `Grade`
is applied to the rounded `Percentage` column (line 40). -/
def compute_student_aggregates (df : MarksDF) (scols : List String)
    (treat_missing_as_zero : Bool) : List AggRow :=
  df.rows.map fun r =>
    let pct : Option ℚ :=
      if treat_missing_as_zero then pctZF df scols r else some (pctSM df scols r)
    { total := trunc (rowTotal df scols r)
      percentage := round2? pct
      grade := gradeOfCell (round2? pct) }

/-! ### compute_statistics -/

/-- The fixed-shape result of `compute_statistics`.  Fields are possibly-NaN
floats (`none` is `NaN`). -/
structure Stats where
  avg : Option ℚ
  median : Option ℚ
  highest : Option ℚ
  pass_rate : Option ℚ
deriving DecidableEq

/-- pandas `Series.mean()`: mean of the non-NaN entries, `NaN` if there are none. -/
def seriesMean (vals : List (Option ℚ)) : Option ℚ :=
  let p := vals.filterMap id
  if p.length = 0 then none else some (p.sum / p.length)

/-- Insert a value into an ascending list, keeping it ascending. -/
def insertAsc (a : ℚ) : List ℚ → List ℚ
  | [] => [a]
  | b :: l => if a ≤ b then a :: b :: l else b :: insertAsc a l

/-- Ascending insertion sort of the values. -/
def sortAsc (l : List ℚ) : List ℚ := l.foldr insertAsc []

/-- pandas `Series.median()`: median of the non-NaN entries (middle of the ascending
sort, or the mean of the two middle entries), `NaN` if there are none. -/
def seriesMedian (vals : List (Option ℚ)) : Option ℚ :=
  let p := sortAsc (vals.filterMap id)
  if p.length = 0 then none
  else if p.length % 2 = 1 then p[p.length / 2]?
  else some (((p[p.length / 2 - 1]?).getD 0 + (p[p.length / 2]?).getD 0) / 2)

/-- pandas `Series.max()` (skipna): maximum of the non-NaN entries, `NaN` if none. -/
def seriesMax (vals : List (Option ℚ)) : Option ℚ :=
  (vals.filterMap id).max?

/-- Line 65, `(series >= 40).mean() * 100`: comparing `NaN >= 40` is false, and the
boolean mean divides by the total number of rows. -/
def passRate (vals : List (Option ℚ)) : ℚ :=
  ((vals.filter fun v =>
      match v with | some p => decide (40 ≤ p) | none => false).length : ℚ)
    / (vals.length : ℚ) * 100

/-- The function `compute_statistics` (lines 57-72).  `hasPct` records whether the frame has
a `Percentage` column and `vals` is that column (`none` is `NaN`); `df.empty`
corresponds to `vals = []`.  The early return yields the all-zero dict; the
four statistics are each rounded to 2 decimals (`round` of `NaN` is `NaN`). -/
def compute_statistics (hasPct : Bool) (vals : List (Option ℚ)) : Stats :=
  if vals.isEmpty || !hasPct then ⟨some 0, some 0, some 0, some 0⟩
  else
    { avg := round2? (seriesMean vals)
      median := round2? (seriesMedian vals)
      highest := round2? (seriesMax vals)
      pass_rate := some (round2 (passRate vals)) }

/-! ### Claims C2, C3, C7 -/

/-- A subject-scores row for the worked example: values for Math and Science. -/
def exRow (m s : ℚ) : String → Option ℚ := fun c =>
  if c = "Math" then some m else if c = "Science" then some s else none

/-- The example dataset of the spec: 3 records over subjects Math, Science with
scores (80,70), (50,40), (100,100). -/
def exDF : MarksDF :=
  ⟨["Math", "Science"], [exRow 80 70, exRow 50 40, exRow 100 100]⟩

unseal Rat.add Rat.mul Rat.inv Rat.sub in
/-- C2 counterexample: on the 3-record example dataset the second record has
Percentage 45.0, which the code grades "D" (the 40-49.99 band), not "C" as the
claim states. -/
theorem example_dataset_grade_counterexample :
    (compute_student_aggregates exDF ["Math", "Science"] true).map
        (fun a => a.grade) = ["B+", "D", "A+"] ∧
    ¬ (compute_student_aggregates exDF ["Math", "Science"] true).map
        (fun a => a.grade) = ["B+", "C", "A+"] := by
  constructor <;> decide

unseal Rat.add Rat.mul Rat.inv Rat.sub in
/-- C2 (amended): on the 3-record example dataset with subjects Math and
Science and scores (80,70), (50,40), (100,100), the zero-fill aggregator
produces Totals 150, 90, 200, Percentages 75.0, 45.0, 100.0 and Grades
B+, D, A+ (45.0 falls in the D band), and compute_statistics on the aggregated
Percentage column returns avg 73.33, median 75.0, highest 100.0 and
pass_rate 100.0. -/
theorem example_dataset_spec :
    compute_student_aggregates exDF ["Math", "Science"] true =
      [⟨150, some 75, "B+"⟩, ⟨90, some 45, "D"⟩, ⟨200, some 100, "A+"⟩] ∧
    compute_statistics true
        ((compute_student_aggregates exDF ["Math", "Science"] true).map
          (fun a => a.percentage)) =
      ⟨some (7333/100), some 75, some 100, some 100⟩ := by
  constructor <;> decide

theorem rowCount_le_length (df : MarksDF) (scols : List String)
    (r : String → Option ℚ) : rowCount df scols r ≤ scols.length :=
  List.length_filter_le _ _

theorem indicator_sum_eq (df : MarksDF) (scols : List String)
    (r : String → Option ℚ) :
    (scols.map fun s => if (df.getV r s).isSome then (100 : ℚ) else 0).sum =
      100 * (rowCount df scols r : ℚ) := by
  induction scols with
  | nil => simp [rowCount]
  | cons s rest ih =>
    simp only [List.map_cons, List.sum_cons, rowCount, List.filter_cons] at ih ⊢
    by_cases h : (df.getV r s).isSome
    · simp only [h, if_true, if_pos, List.length_cons]
      rw [ih]
      push_cast
      ring
    · simp only [h, Bool.false_eq_true, if_false, if_neg, not_false_iff]
      rw [ih]
      ring_nf

theorem rowTotal_nonneg (df : MarksDF) (scols : List String)
    (r : String → Option ℚ)
    (hb : ∀ s ∈ scols, 0 ≤ (df.getV r s).getD 0) :
    0 ≤ rowTotal df scols r := by
  unfold rowTotal
  apply List.sum_nonneg
  intro x hx
  obtain ⟨s, hs, rfl⟩ := List.mem_map.mp hx
  exact hb s hs

theorem rowTotal_le_hundred_count (df : MarksDF) (scols : List String)
    (r : String → Option ℚ)
    (hb : ∀ s ∈ scols, (df.getV r s).getD 0 ≤ 100) :
    rowTotal df scols r ≤ 100 * (rowCount df scols r : ℚ) := by
  unfold rowTotal
  calc (scols.map fun s => (df.getV r s).getD 0).sum
      ≤ (scols.map fun s => if (df.getV r s).isSome then (100 : ℚ) else 0).sum := by
        apply List.sum_le_sum
        intro s hs
        by_cases h : (df.getV r s).isSome
        · simp only [h, if_true]
          exact hb s hs
        · have : df.getV r s = none := Option.not_isSome_iff_eq_none.mp (by simpa using h)
          simp [this]
    _ = 100 * (rowCount df scols r : ℚ) := indicator_sum_eq df scols r

/-- C3: for every dataset and every non-empty subject-column list, under both
missing-value policies, if every (present) subject cell read by the aggregator
lies within [0,100] then every Percentage produced by
compute_student_aggregates lies within [0,100]. -/
theorem percentage_bounded (df : MarksDF) (scols : List String) (tmz : Bool)
    (hne : scols ≠ [])
    (hb : ∀ r ∈ df.rows, ∀ s ∈ scols,
      0 ≤ (df.getV r s).getD 0 ∧ (df.getV r s).getD 0 ≤ 100) :
    ∀ a ∈ compute_student_aggregates df scols tmz, ∀ p ∈ a.percentage,
      0 ≤ p ∧ p ≤ 100 := by
  intro a ha p hp
  simp only [compute_student_aggregates, List.mem_map] at ha
  obtain ⟨r, hr, rfl⟩ := ha
  have hbr := hb r hr
  have h0 : 0 ≤ rowTotal df scols r :=
    rowTotal_nonneg df scols r (fun s hs => (hbr s hs).1)
  have h1 : rowTotal df scols r ≤ 100 * (rowCount df scols r : ℚ) :=
    rowTotal_le_hundred_count df scols r (fun s hs => (hbr s hs).2)
  have h2 : (rowCount df scols r : ℚ) ≤ (scols.length : ℚ) := by
    exact_mod_cast rowCount_le_length df scols r
  have hlen : 0 < (scols.length : ℚ) := by
    have : scols.length ≠ 0 := by
      intro h
      exact hne (List.eq_nil_of_length_eq_zero h)
    positivity
  simp only [Option.mem_def, round2?] at hp
  rw [Option.map_eq_some'] at hp
  obtain ⟨q, hq, hpq⟩ := hp
  subst hpq
  have hq01 : 0 ≤ q ∧ q ≤ 100 := by
    by_cases htmz : tmz = true
    · simp only [htmz, if_true, pctZF] at hq
      split at hq
      · exact absurd hq (by simp)
      · rename_i hlz
        simp only [Option.some_inj] at hq
        subst hq
        constructor
        · have hpos : (0 : ℚ) < 100 * (scols.length : ℚ) := by positivity
          positivity
        · rw [div_mul_eq_mul_div, div_le_iff (by positivity)]
          have hcle : 100 * (rowCount df scols r : ℚ) ≤ 100 * (scols.length : ℚ) := by
            linarith
          nlinarith
    · simp [htmz] at hq
      subst hq
      unfold pctSM
      split
      · norm_num
      · rename_i hcz
        have hc : 0 < (rowCount df scols r : ℚ) := by
          have : rowCount df scols r ≠ 0 := hcz
          positivity
        constructor
        · have hp1 : (0:ℚ) < (rowCount df scols r : ℚ) * 100 := by positivity
          positivity
        · rw [div_mul_eq_mul_div, div_le_iff (by positivity)]
          nlinarith
  exact ⟨round2_nonneg hq01.1, round2_le_100 hq01.2⟩

unseal Rat.add Rat.mul Rat.inv Rat.sub in
/-- C3 witness: the bound holds at the first record of the concrete example
dataset, whose rounded Percentage is 75. -/
theorem percentage_bounded_witness :
    (["Math", "Science"] : List String) ≠ [] ∧ 0 ≤ (75 : ℚ) ∧ (75 : ℚ) ≤ 100 :=
  ⟨by decide,
    percentage_bounded exDF ["Math", "Science"] true (by decide) (by decide)
      ⟨150, some 75, "B+"⟩ (by decide) 75 (by decide)⟩

/-- C7: under the skip-missing policy, the row total (line 34) is the sum of
only the present subject values, the percentage (lines 36-37) equals
total / (100 * count) * 100 when the count of present values is non-zero and
is 0 when no subject value is present, and the aggregator stores a non-NaN
(never-failing) Percentage for every record. -/
theorem skip_missing_spec (df : MarksDF) (scols : List String)
    (r : String → Option ℚ) :
    rowTotal df scols r = ((scols.map fun s => df.getV r s).filterMap id).sum ∧
    (rowCount df scols r = 0 → pctSM df scols r = 0) ∧
    (rowCount df scols r ≠ 0 →
      pctSM df scols r =
        rowTotal df scols r / (100 * (rowCount df scols r : ℚ)) * 100) ∧
    (compute_student_aggregates df scols false).map (fun a => a.percentage) =
      df.rows.map (fun row => some (round2 (pctSM df scols row))) := by
  refine ⟨?_, ?_, ?_, ?_⟩
  · induction scols with
    | nil => simp [rowTotal]
    | cons s rest ih =>
      simp only [rowTotal, List.map_cons, List.sum_cons, List.filterMap_cons] at ih ⊢
      cases h : df.getV r s with
      | none => simpa [h] using ih
      | some v => simp [h, ih]
  · intro h
    simp [pctSM, h]
  · intro h
    simp only [pctSM, if_neg h]
    ring_nf
  · simp [compute_student_aggregates, round2?]

/-! ### Claim C4 -/

unseal Rat.add Rat.mul Rat.inv Rat.sub in
/-- C4 counterexample: a frame whose Percentage column exists but holds only
NaN is "a Dataset with no Percentage field populated", yet compute_statistics
returns NaN (not 0) for avg, median and highest on it: `mean`, `median` and
`max` of an all-NaN series are NaN, `round(nan, 2)` is NaN, and only the
boolean pass rate degrades to 0. -/
theorem compute_statistics_nan_counterexample :
    compute_statistics true [none] = ⟨none, none, none, some 0⟩ ∧
    ¬ compute_statistics true [none] = ⟨some 0, some 0, some 0, some 0⟩ := by
  constructor <;> decide

/-- C4 (amended): compute_statistics is total (never fails) and returns exactly
the all-zero summary whenever the input frame is empty or has no Percentage
column; a present-but-all-NaN Percentage column instead yields NaN statistics
with pass_rate 0. -/
theorem compute_statistics_empty (hasPct : Bool) (vals : List (Option ℚ))
    (h : vals = [] ∨ hasPct = false) :
    compute_statistics hasPct vals = ⟨some 0, some 0, some 0, some 0⟩ := by
  rcases h with h | h <;> simp [compute_statistics, h]

/-- C4 witness: summarize of the empty Dataset is the all-zero summary. -/
theorem compute_statistics_empty_witness :
    compute_statistics true [] = ⟨some 0, some 0, some 0, some 0⟩ :=
  compute_statistics_empty true [] (Or.inl rfl)

/-! ### filter_data -/

/-- The data `filter_data` reads from a frame: whether the three referenced
columns exist, the accessor for each, and the ordered records. -/
structure FilterDF (α : Type) where
  hasClass : Bool
  hasSection : Bool
  hasPct : Bool
  cls : α → String
  sec : α → String
  pct : α → Option ℚ
  rows : List α

/-- Comparison used by `sort_values(by="Percentage", ascending=False,
na_position="last")`: descending on present values, NaN ordered last. -/
def descLE (a b : Option ℚ) : Bool :=
  match a, b with
  | none, none => true
  | none, some _ => false
  | some _, none => true
  | some x, some y => decide (y ≤ x)

/-- Row comparison induced by the Percentage accessor. -/
def FilterDF.rowLE {α : Type} (df : FilterDF α) (a b : α) : Bool :=
  descLE (df.pct a) (df.pct b)

/-- Line 77-78: keep exact Class matches, if requested and the column exists. -/
def stepClass {α : Type} (df : FilterDF α) (selClass : String)
    (l : List α) : List α :=
  if selClass != "All" && df.hasClass then
    l.filter fun r => decide (df.cls r = selClass)
  else l

/-- Line 79-80: keep exact Section matches, if requested and the column exists. -/
def stepSection {α : Type} (df : FilterDF α) (selSection : String)
    (l : List α) : List α :=
  if selSection != "All" && df.hasSection then
    l.filter fun r => decide (df.sec r = selSection)
  else l

/-- Line 81-82: keep records with `Percentage >= min_percent`; a NaN Percentage
fails the comparison. -/
def stepMin {α : Type} (df : FilterDF α) (minPercent : ℚ) (l : List α) : List α :=
  if decide (0 < minPercent) && df.hasPct then
    l.filter fun r =>
      match df.pct r with | some p => decide (minPercent ≤ p) | none => false
  else l

/-- Python truthiness of the `top_n` argument: `None` and `0` are falsy. -/
def truthy : Option ℕ → Bool
  | some (n + 1) => true
  | some 0 => false
  | none => false

/-! #### numpy argsort, kind="quicksort"

Line 84 calls `sort_values(by="Percentage", ascending=False)`, which is pandas
`nargsort` over the Percentage values with numpy's default `kind="quicksort"`.
numpy's `aquicksort` argsorts an index array `tosort` over a read-only value
array: spans of more than `SMALL_QUICKSORT = 15` gaps (17 or more elements) are
split by a median-of-3 exchange partition whose scans stop on every value equal
to the pivot, and spans of at most 16 elements get a stable insertion sort, so
tie runs longer than 16 elements are permuted.  The functions below transcribe
that algorithm; the introsort depth limit (a heapsort fallback after
`2 * log2 n` failed partitions) is not modelled, as it can only trigger beyond
recursion depth `2 * log2 n`. -/

/-- Read `tosort[i]`. -/
def lget (t : List ℕ) (i : ℕ) : ℕ := t.getD i 0

/-- Write `tosort[i] = x`. -/
def lset : List ℕ → ℕ → ℕ → List ℕ
  | [], _, _ => []
  | _ :: rest, 0, x => x :: rest
  | y :: rest, i + 1, x => y :: lset rest i x

/-- `INTP_SWAP(tosort[i], tosort[j])`. -/
def lswap (t : List ℕ) (i j : ℕ) : List ℕ :=
  lset (lset t i (lget t j)) j (lget t i)

/-- One step of `aquicksort`'s insertion sort: the inner loop shifts entries
right while `vp < v[*pk]`, so index `p` lands after every entry whose value is
at most `v p` — ascending and stable. -/
def insV (v : ℕ → ℚ) (p : ℕ) : List ℕ → List ℕ
  | [] => [p]
  | q :: rest => if v p < v q then p :: q :: rest else q :: insV v p rest

/-- `aquicksort`'s insertion sort of a whole small span, inserting the index
entries left to right. -/
def insertionSortV (v : ℕ → ℚ) (s : List ℕ) : List ℕ :=
  s.foldl (fun acc p => insV v p acc) []

/-- The ascending scan `do ++pi; while (v[*pi] < vp);` of the partition loop:
it stops at the first position right of `i` whose value is not below the
pivot, hence on every tie. -/
def scanUp (v : ℕ → ℚ) (vp : ℚ) (t : List ℕ) : ℕ → ℕ → ℕ
  | 0, i => i + 1
  | f + 1, i => if v (lget t (i + 1)) < vp then scanUp v vp t f (i + 1) else i + 1

/-- The descending scan `do --pj; while (vp < v[*pj]);`. -/
def scanDown (v : ℕ → ℚ) (vp : ℚ) (t : List ℕ) : ℕ → ℕ → ℕ
  | 0, j => j - 1
  | f + 1, j => if vp < v (lget t (j - 1)) then scanDown v vp t f (j - 1) else j - 1

/-- The partition exchange loop: advance both scans; when they cross, stop at
the left scan's position, otherwise swap the two stopped entries — tie entries
included, which is what reorders long tie runs — and continue.  The fuel is an
artifact of the embedding; callers pass more than the span length, which the
inward-moving scans never exhaust. -/
def scanLoop (v : ℕ → ℚ) (vp : ℚ) : ℕ → List ℕ → ℕ → ℕ → List ℕ × ℕ
  | 0, t, i, _ => (t, i)
  | f + 1, t, i, j =>
    let i2 := scanUp v vp t f i
    let j2 := scanDown v vp t f j
    if j2 ≤ i2 then (t, i2)
    else scanLoop v vp f (lswap t i2 j2) i2 j2

/-- One `aquicksort` partition of a whole span (positions `pl = 0` to
`pr = length - 1`): median-of-3 pivot selection swapping the entries at `pl`,
`pm`, `pr` into order, pivot entry parked at `pr - 1`, exchange scan from both
ends, pivot restored at the crossing position.  Returns the permuted span and
the pivot position. -/
def partitionSeg (v : ℕ → ℚ) (s : List ℕ) : List ℕ × ℕ :=
  let pr := s.length - 1
  let pm := pr / 2
  let s1 := if v (lget s pm) < v (lget s 0) then lswap s pm 0 else s
  let s2 := if v (lget s1 pr) < v (lget s1 pm) then lswap s1 pr pm else s1
  let s3 := if v (lget s2 pm) < v (lget s2 0) then lswap s2 pm 0 else s2
  let vp := v (lget s3 pm)
  let s4 := lswap s3 pm (pr - 1)
  let ti := scanLoop v vp (s.length + 2) s4 0 (pr - 1)
  (lswap ti.1 ti.2 (pr - 1), ti.2)

/-- numpy `aquicksort`, fuelled: spans of more than 16 elements are split by
`partitionSeg` and both sides sorted recursively (the explicit stack of the C
code only changes traversal order over disjoint spans, not the result); spans
of at most 16 elements get the stable insertion sort. -/
def npQSortSeg (v : ℕ → ℚ) : ℕ → List ℕ → List ℕ
  | 0, s => s
  | f + 1, s =>
    if s.length ≤ 16 then insertionSortV v s
    else
      npQSortSeg v f ((partitionSeg v s).1.take (partitionSeg v s).2) ++
        lget (partitionSeg v s).1 (partitionSeg v s).2 ::
          npQSortSeg v f ((partitionSeg v s).1.drop ((partitionSeg v s).2 + 1))

/-- `values.argsort(kind="quicksort")`: argsort of `k` values read through `v`,
starting from the identity index array. -/
def npArgsortPos (v : ℕ → ℚ) (k : ℕ) : List ℕ :=
  npQSortSeg v (k + 1) (List.range k)

/-- Positions of the present (non-NaN) values, in input order (`idx[~mask]` in
pandas `nargsort`). -/
def nonNanIdx (vals : List (Option ℚ)) : List ℕ :=
  (List.range vals.length).filter (fun i => (vals.getD i none).isSome)

/-- Positions of the NaN values, in input order (`idx[mask]`). -/
def nanIdx (vals : List (Option ℚ)) : List ℕ :=
  (List.range vals.length).filter (fun i => !(vals.getD i none).isSome)

/-- The value the argsort compares at position `p`: with `ascending=False`,
`nargsort` reverses the non-NaN values (and their positions) before
argsorting. -/
def revVal (vals : List (Option ℚ)) (p : ℕ) : ℚ :=
  (vals.getD ((nonNanIdx vals).reverse.getD p 0) none).getD 0

/-- pandas `nargsort(values, kind="quicksort", ascending=False,
na_position="last")`: reverse the non-NaN values and their positions, argsort
ascending with numpy quicksort, map back to original row positions, reverse,
and append the NaN positions in input order. -/
def npIndexer (vals : List (Option ℚ)) : List ℕ :=
  ((npArgsortPos (revVal vals) (nonNanIdx vals).length).map
      (fun p => (nonNanIdx vals).reverse.getD p 0)).reverse ++ nanIdx vals

/-- `df.sort_values(by="Percentage", ascending=False)`: reorder the rows by
the `nargsort` indexer. -/
def npSortDesc {α : Type} (pct : α → Option ℚ) (l : List α) : List α :=
  (npIndexer (l.map pct)).filterMap (fun i => l[i]?)

/-- Line 83-84: sort by Percentage descending via pandas `nargsort` with
numpy's default (unstable) quicksort, and truncate to the first `top_n`
records. -/
def stepTop {α : Type} (df : FilterDF α) (topN : Option ℕ) (l : List α) : List α :=
  if truthy topN && df.hasPct then
    (npSortDesc df.pct l).take (topN.getD 0)
  else l

/-- The function `filter_data` (lines 74-85): the four filter steps in source order. -/
def filter_data {α : Type} (df : FilterDF α) (selClass selSection : String)
    (minPercent : ℚ) (topN : Option ℕ) : List α :=
  stepTop df topN
    (stepMin df minPercent
      (stepSection df selSection
        (stepClass df selClass df.rows)))

theorem descLE_total (a b : Option ℚ) : descLE a b || descLE b a := by
  rcases a with _ | x <;> rcases b with _ | y <;> simp [descLE, le_total]

theorem descLE_trans (a b c : Option ℚ) (h1 : descLE a b) (h2 : descLE b c) :
    descLE a c := by
  rcases a with _ | x <;> rcases b with _ | y <;> rcases c with _ | z <;>
    simp_all [descLE] <;> linarith

theorem rowLE_total {α : Type} (df : FilterDF α) (a b : α) :
    df.rowLE a b || df.rowLE b a := descLE_total _ _

theorem rowLE_trans {α : Type} (df : FilterDF α) (a b c : α)
    (h1 : df.rowLE a b) (h2 : df.rowLE b c) : df.rowLE a c :=
  descLE_trans _ _ _ h1 h2

theorem mem_of_mem_stepClass {α : Type} {df : FilterDF α} {c : String}
    {l : List α} {r : α} (h : r ∈ stepClass df c l) : r ∈ l := by
  unfold stepClass at h
  split at h
  · exact (List.mem_filter.mp h).1
  · exact h

theorem mem_of_mem_stepSection {α : Type} {df : FilterDF α} {s : String}
    {l : List α} {r : α} (h : r ∈ stepSection df s l) : r ∈ l := by
  unfold stepSection at h
  split at h
  · exact (List.mem_filter.mp h).1
  · exact h

theorem mem_of_mem_stepMin {α : Type} {df : FilterDF α} {m : ℚ}
    {l : List α} {r : α} (h : r ∈ stepMin df m l) : r ∈ l := by
  unfold stepMin at h
  split at h
  · exact (List.mem_filter.mp h).1
  · exact h

theorem mem_of_mem_npSortDesc {α : Type} {pct : α → Option ℚ} {l : List α}
    {r : α} (h : r ∈ npSortDesc pct l) : r ∈ l := by
  unfold npSortDesc at h
  obtain ⟨i, _, hr⟩ := List.mem_filterMap.mp h
  exact List.getElem?_mem hr

theorem mem_of_mem_stepTop {α : Type} {df : FilterDF α} {t : Option ℕ}
    {l : List α} {r : α} (h : r ∈ stepTop df t l) : r ∈ l := by
  unfold stepTop at h
  split at h
  · exact mem_of_mem_npSortDesc (List.mem_of_mem_take h)
  · exact h

theorem mem_of_mem_filter_data {α : Type} {df : FilterDF α}
    {c s : String} {m : ℚ} {t : Option ℕ} {r : α}
    (h : r ∈ filter_data df c s m t) : r ∈ df.rows :=
  mem_of_mem_stepClass (mem_of_mem_stepSection (mem_of_mem_stepMin
    (mem_of_mem_stepTop h)))

theorem stepClass_pred {α : Type} {df : FilterDF α} {c : String}
    {l : List α} {r : α} (h : r ∈ stepClass df c l)
    (hc : (c != "All" && df.hasClass) = true) : df.cls r = c := by
  unfold stepClass at h
  rw [if_pos hc] at h
  have := (List.mem_filter.mp h).2
  simpa using this

theorem stepSection_pred {α : Type} {df : FilterDF α} {s : String}
    {l : List α} {r : α} (h : r ∈ stepSection df s l)
    (hc : (s != "All" && df.hasSection) = true) : df.sec r = s := by
  unfold stepSection at h
  rw [if_pos hc] at h
  have := (List.mem_filter.mp h).2
  simpa using this

theorem stepMin_pred {α : Type} {df : FilterDF α} {m : ℚ}
    {l : List α} {r : α} (h : r ∈ stepMin df m l)
    (hc : (decide (0 < m) && df.hasPct) = true) :
    (match df.pct r with | some p => decide (m ≤ p) | none => false) = true := by
  unfold stepMin at h
  rw [if_pos hc] at h
  exact (List.mem_filter.mp h).2

theorem stepClass_eq_self {α : Type} {df : FilterDF α} {c : String}
    {l : List α}
    (h : ∀ r ∈ l, (c != "All" && df.hasClass) = true → df.cls r = c) :
    stepClass df c l = l := by
  unfold stepClass
  split
  · rename_i hc
    apply List.filter_eq_self.mpr
    intro r hr
    simpa using h r hr hc
  · rfl

theorem stepSection_eq_self {α : Type} {df : FilterDF α} {s : String}
    {l : List α}
    (h : ∀ r ∈ l, (s != "All" && df.hasSection) = true → df.sec r = s) :
    stepSection df s l = l := by
  unfold stepSection
  split
  · rename_i hc
    apply List.filter_eq_self.mpr
    intro r hr
    simpa using h r hr hc
  · rfl

theorem stepMin_eq_self {α : Type} {df : FilterDF α} {m : ℚ}
    {l : List α}
    (h : ∀ r ∈ l, (decide (0 < m) && df.hasPct) = true →
      (match df.pct r with | some p => decide (m ≤ p) | none => false) = true) :
    stepMin df m l = l := by
  unfold stepMin
  split
  · rename_i hc
    apply List.filter_eq_self.mpr
    intro r hr
    exact h r hr hc
  · rfl

/-! #### Correctness of the numpy model on small frames

On at most 16 elements `aquicksort` is its insertion sort, which is stable, so
there the whole `nargsort` pipeline coincides with the stable descending sort
`List.mergeSort` under `rowLE`.  The proof sorts the enumerated rows: the
pipeline output is a sorted permutation of `l.enum` under the antisymmetric
order `enumLE`, hence equal to `mergeSort` of it. -/

theorem insV_cons (v : ℕ → ℚ) (p q : ℕ) (rest : List ℕ) :
    insV v p (q :: rest) =
      if v p < v q then p :: q :: rest else q :: insV v p rest := rfl

theorem insV_perm (v : ℕ → ℚ) (p : ℕ) (acc : List ℕ) :
    (insV v p acc).Perm (p :: acc) := by
  induction acc with
  | nil => exact List.Perm.refl _
  | cons q rest ih =>
    rw [insV_cons]
    by_cases h : v p < v q
    · rw [if_pos h]
    · rw [if_neg h]
      exact (List.Perm.cons q ih).trans (List.Perm.swap p q rest)

theorem mem_insV {v : ℕ → ℚ} {p x : ℕ} {acc : List ℕ} :
    x ∈ insV v p acc ↔ x = p ∨ x ∈ acc := by
  rw [(insV_perm v p acc).mem_iff]
  simp

/-- The order produced by the ascending, stable insertion sort on distinct
positions: strictly smaller value, or equal value and not-later position. -/
def posLE (v : ℕ → ℚ) (p q : ℕ) : Prop := v p < v q ∨ (v p = v q ∧ p ≤ q)

theorem insV_pairwise {v : ℕ → ℚ} {p : ℕ} (acc : List ℕ)
    (hs : acc.Pairwise (posLE v)) (hlt : ∀ q ∈ acc, q < p) :
    (insV v p acc).Pairwise (posLE v) := by
  induction acc with
  | nil =>
    exact List.Pairwise.cons (fun y hy => absurd hy (List.not_mem_nil y))
      List.Pairwise.nil
  | cons q rest ih =>
    rw [insV_cons]
    by_cases hvpq : v p < v q
    · rw [if_pos hvpq]
      refine List.Pairwise.cons ?_ hs
      intro x hx
      rcases List.mem_cons.mp hx with rfl | hx'
      · exact Or.inl hvpq
      · rcases List.rel_of_pairwise_cons hs hx' with h1 | ⟨h2, _⟩
        · exact Or.inl (lt_trans hvpq h1)
        · exact Or.inl (h2 ▸ hvpq)
    · rw [if_neg hvpq]
      refine List.Pairwise.cons ?_
        (ih hs.of_cons (fun r hr => hlt r (List.mem_cons_of_mem q hr)))
      intro y hy
      rcases mem_insV.mp hy with rfl | hy'
      · rcases lt_or_eq_of_le (not_lt.mp hvpq) with h1 | h2
        · exact Or.inl h1
        · exact Or.inr ⟨h2, le_of_lt (hlt q (List.mem_cons_self q rest))⟩
      · exact List.rel_of_pairwise_cons hs hy'

theorem foldl_insV_perm (v : ℕ → ℚ) (s : List ℕ) : ∀ acc : List ℕ,
    (s.foldl (fun acc p => insV v p acc) acc).Perm (s ++ acc) := by
  induction s with
  | nil => intro acc; exact List.Perm.refl _
  | cons p s ih =>
    intro acc
    show (s.foldl (fun acc p => insV v p acc) (insV v p acc)).Perm _
    refine (ih (insV v p acc)).trans ?_
    refine (List.Perm.append_left s (insV_perm v p acc)).trans ?_
    exact List.perm_middle

theorem insertionSortV_perm (v : ℕ → ℚ) (s : List ℕ) :
    (insertionSortV v s).Perm s := by
  have h := foldl_insV_perm v s []
  rwa [List.append_nil] at h

theorem foldl_insV_pairwise (v : ℕ → ℚ) (s : List ℕ) : ∀ acc : List ℕ,
    s.Pairwise (· < ·) → acc.Pairwise (posLE v) →
    (∀ q ∈ acc, ∀ r ∈ s, q < r) →
    (s.foldl (fun acc p => insV v p acc) acc).Pairwise (posLE v) := by
  induction s with
  | nil => intro acc _ hacc _; exact hacc
  | cons p s ih =>
    intro acc hss hacc hcross
    show (s.foldl (fun acc p => insV v p acc) (insV v p acc)).Pairwise (posLE v)
    refine ih (insV v p acc) hss.of_cons ?_ ?_
    · exact insV_pairwise acc hacc (fun q hq => hcross q hq p (List.mem_cons_self p s))
    · intro q hq r hr
      rcases mem_insV.mp hq with rfl | hq'
      · exact List.rel_of_pairwise_cons hss hr
      · exact hcross q hq' r (List.mem_cons_of_mem p hr)

theorem insertionSortV_pairwise (v : ℕ → ℚ) (s : List ℕ)
    (hs : s.Pairwise (· < ·)) : (insertionSortV v s).Pairwise (posLE v) :=
  foldl_insV_pairwise v s [] hs List.Pairwise.nil
    (fun q hq => absurd hq (List.not_mem_nil q))

theorem npQSortSeg_small (v : ℕ → ℚ) (f : ℕ) (s : List ℕ) (h : s.length ≤ 16) :
    npQSortSeg v (f + 1) s = insertionSortV v s := by
  show (if s.length ≤ 16 then insertionSortV v s
    else npQSortSeg v f ((partitionSeg v s).1.take (partitionSeg v s).2) ++
      lget (partitionSeg v s).1 (partitionSeg v s).2 ::
        npQSortSeg v f ((partitionSeg v s).1.drop ((partitionSeg v s).2 + 1))) =
    insertionSortV v s
  rw [if_pos h]

theorem npArgsortPos_small (v : ℕ → ℚ) (k : ℕ) (hk : k ≤ 16) :
    npArgsortPos v k = insertionSortV v (List.range k) :=
  npQSortSeg_small v k (List.range k) (by simpa using hk)

theorem nonNanIdx_length_le (vals : List (Option ℚ)) :
    (nonNanIdx vals).length ≤ vals.length := by
  unfold nonNanIdx
  have h := List.length_filter_le (fun i => (vals.getD i none).isSome)
    (List.range vals.length)
  rw [List.length_range] at h
  exact h

theorem nonNanIdx_pairwise (vals : List (Option ℚ)) :
    (nonNanIdx vals).Pairwise (· < ·) :=
  (List.pairwise_lt_range _).filter _

theorem nanIdx_pairwise (vals : List (Option ℚ)) :
    (nanIdx vals).Pairwise (· < ·) :=
  (List.pairwise_lt_range _).filter _

theorem mem_nonNanIdx {vals : List (Option ℚ)} {i : ℕ} (h : i ∈ nonNanIdx vals) :
    i < vals.length ∧ (vals.getD i none).isSome = true := by
  have h2 := List.mem_filter.mp h
  exact ⟨List.mem_range.mp h2.1, h2.2⟩

theorem mem_nanIdx {vals : List (Option ℚ)} {i : ℕ} (h : i ∈ nanIdx vals) :
    i < vals.length ∧ vals.getD i none = none := by
  have h2 := List.mem_filter.mp h
  refine ⟨List.mem_range.mp h2.1, ?_⟩
  have h3 := h2.2
  cases ho : vals.getD i none with
  | none => rfl
  | some x => rw [ho] at h3; simp at h3

theorem natList_getD_lt (t : List ℕ) (p : ℕ) (hp : p < t.length) :
    t.getD p 0 = t[p] := by
  rw [List.getD_eq_getElem?_getD, List.getElem?_eq_getElem hp]
  rfl

theorem revIdx_strict_anti (vals : List (Option ℚ)) {p q : ℕ}
    (hpq : p < q) (hq : q < (nonNanIdx vals).length) :
    (nonNanIdx vals).reverse.getD q 0 < (nonNanIdx vals).reverse.getD p 0 := by
  have hq' : q < (nonNanIdx vals).reverse.length := by simpa using hq
  have hp' : p < (nonNanIdx vals).reverse.length := lt_trans hpq hq'
  have hrev : (nonNanIdx vals).reverse.Pairwise (fun a b => b < a) :=
    List.pairwise_reverse.mpr (nonNanIdx_pairwise vals)
  have hg := List.pairwise_iff_getElem.mp hrev p q hp' hq' hpq
  rwa [natList_getD_lt _ _ hq', natList_getD_lt _ _ hp']

theorem gI_mem {vals : List (Option ℚ)} {p : ℕ}
    (hp : p < (nonNanIdx vals).length) :
    (nonNanIdx vals).reverse.getD p 0 ∈ nonNanIdx vals := by
  have hp' : p < (nonNanIdx vals).reverse.length := by simpa using hp
  rw [natList_getD_lt _ _ hp']
  exact List.mem_reverse.mp (List.getElem_mem hp')

theorem revVal_spec {vals : List (Option ℚ)} {p : ℕ}
    (hp : p < (nonNanIdx vals).length) :
    vals.getD ((nonNanIdx vals).reverse.getD p 0) none = some (revVal vals p) := by
  have hm := mem_nonNanIdx (gI_mem hp)
  unfold revVal
  cases ho : vals.getD ((nonNanIdx vals).reverse.getD p 0) none with
  | none => rw [ho] at hm; exact absurd hm.2 (by simp)
  | some x => rfl

theorem map_getD_of_getElem {α : Type} (pct : α → Option ℚ) {l : List α}
    {i : ℕ} {a : α} (h : l[i]? = some a) :
    (l.map pct).getD i none = pct a := by
  rw [List.getD_eq_getElem?_getD, List.getElem?_map, h]
  rfl

theorem range_map_getD {β : Type} (l : List β) (dflt : β) :
    (List.range l.length).map (fun i => l.getD i dflt) = l := by
  apply List.ext_getElem
  · simp
  · intro i h1 h2
    simp only [List.getElem_map, List.getElem_range]
    rw [List.getD_eq_getElem?_getD, List.getElem?_eq_getElem h2]
    rfl

theorem npArgsortPos_perm_small (v : ℕ → ℚ) (k : ℕ) (hk : k ≤ 16) :
    (npArgsortPos v k).Perm (List.range k) := by
  rw [npArgsortPos_small v k hk]
  exact insertionSortV_perm v _

theorem npIndexer_perm (vals : List (Option ℚ))
    (hk : (nonNanIdx vals).length ≤ 16) :
    (npIndexer vals).Perm (List.range vals.length) := by
  unfold npIndexer
  have h1 : (((npArgsortPos (revVal vals) (nonNanIdx vals).length).map
      (fun p => (nonNanIdx vals).reverse.getD p 0)).reverse).Perm
      (nonNanIdx vals) := by
    refine (List.reverse_perm _).trans ?_
    refine ((npArgsortPos_perm_small (revVal vals) _ hk).map
      (fun p => (nonNanIdx vals).reverse.getD p 0)).trans ?_
    have h2 : (List.range (nonNanIdx vals).length).map
        (fun p => (nonNanIdx vals).reverse.getD p 0) = (nonNanIdx vals).reverse := by
      have h3 : (nonNanIdx vals).length = (nonNanIdx vals).reverse.length := by simp
      rw [h3]
      exact range_map_getD (nonNanIdx vals).reverse 0
    rw [h2]
    exact List.reverse_perm _
  refine (h1.append_right (nanIdx vals)).trans ?_
  exact List.filter_append_perm _ _

theorem npIndexer_pairwise {α : Type} (pct : α → Option ℚ) (l : List α)
    (hlen : l.length ≤ 16) :
    (npIndexer (l.map pct)).Pairwise (fun i j => ∀ (a b : α),
      l[i]? = some a → l[j]? = some b →
      List.enumLE (fun x y => descLE (pct x) (pct y)) (i, a) (j, b) = true) := by
  have hk : (nonNanIdx (l.map pct)).length ≤ 16 := by
    have h1 := nonNanIdx_length_le (l.map pct)
    rw [List.length_map] at h1
    omega
  have hts : npArgsortPos (revVal (l.map pct)) (nonNanIdx (l.map pct)).length =
      insertionSortV (revVal (l.map pct))
        (List.range (nonNanIdx (l.map pct)).length) :=
    npArgsortPos_small _ _ hk
  have htsPW : (npArgsortPos (revVal (l.map pct))
      (nonNanIdx (l.map pct)).length).Pairwise (posLE (revVal (l.map pct))) := by
    rw [hts]
    exact insertionSortV_pairwise _ _ (List.pairwise_lt_range _)
  have hmemts : ∀ p ∈ npArgsortPos (revVal (l.map pct))
      (nonNanIdx (l.map pct)).length, p < (nonNanIdx (l.map pct)).length := by
    intro p hp
    rw [hts] at hp
    exact List.mem_range.mp ((insertionSortV_perm _ _).mem_iff.mp hp)
  unfold npIndexer
  apply List.pairwise_append.mpr
  refine ⟨?_, ?_, ?_⟩
  · rw [List.pairwise_reverse, List.pairwise_map]
    refine htsPW.imp_of_mem ?_
    intro p q hp hq hpq a b ha hb
    have hpk := hmemts p hp
    have hqk := hmemts q hq
    have hsa : pct a = some (revVal (l.map pct) q) := by
      have h1 := map_getD_of_getElem pct ha
      rw [← h1]
      exact revVal_spec hqk
    have hsb : pct b = some (revVal (l.map pct) p) := by
      have h1 := map_getD_of_getElem pct hb
      rw [← h1]
      exact revVal_spec hpk
    rcases hpq with hlt | ⟨heq, hple⟩
    · have h1 : descLE (pct a) (pct b) = true := by
        rw [hsa, hsb]
        simp only [descLE, decide_eq_true_eq]
        exact le_of_lt hlt
      have h2 : descLE (pct b) (pct a) = false := by
        rw [hsb, hsa]
        simp only [descLE, decide_eq_false_iff_not]
        exact not_le.mpr hlt
      simp only [List.enumLE]
      rw [h1, h2]
      simp
    · have h1 : descLE (pct a) (pct b) = true := by
        rw [hsa, hsb]
        simp [descLE, heq]
      have h2 : descLE (pct b) (pct a) = true := by
        rw [hsb, hsa]
        simp [descLE, heq]
      have h3 : (l.map pct |> nonNanIdx).reverse.getD q 0 ≤
          (l.map pct |> nonNanIdx).reverse.getD p 0 := by
        rcases lt_or_eq_of_le hple with h | h
        · exact le_of_lt (revIdx_strict_anti (l.map pct) h hqk)
        · rw [h]
      simp only [List.enumLE]
      rw [h1, h2]
      simpa using h3
  · refine (nanIdx_pairwise (l.map pct)).imp_of_mem ?_
    intro i j hi hj hij a b ha hb
    have hpa : pct a = none := by
      have h1 := map_getD_of_getElem pct ha
      rw [← h1]
      exact (mem_nanIdx hi).2
    have hpb : pct b = none := by
      have h1 := map_getD_of_getElem pct hb
      rw [← h1]
      exact (mem_nanIdx hj).2
    have h1 : descLE (pct a) (pct b) = true := by rw [hpa, hpb]; rfl
    have h2 : descLE (pct b) (pct a) = true := by rw [hpb, hpa]; rfl
    simp only [List.enumLE]
    rw [h1, h2]
    simpa using le_of_lt hij
  · intro x hx y hy
    rw [List.mem_reverse] at hx
    obtain ⟨p, hp, rfl⟩ := List.mem_map.mp hx
    intro a b ha hb
    have hpk := hmemts p hp
    have hsa : pct a = some (revVal (l.map pct) p) := by
      have h1 := map_getD_of_getElem pct ha
      rw [← h1]
      exact revVal_spec hpk
    have hpb : pct b = none := by
      have h1 := map_getD_of_getElem pct hb
      rw [← h1]
      exact (mem_nanIdx hy).2
    have h1 : descLE (pct a) (pct b) = true := by rw [hsa, hpb]; rfl
    have h2 : descLE (pct b) (pct a) = false := by rw [hpb, hsa]; rfl
    simp only [List.enumLE]
    rw [h1, h2]
    simp

theorem filterMap_enum_range {α : Type} (l : List α) :
    (List.range l.length).filterMap (fun i => (l[i]?).map (fun a => (i, a))) =
      l.enum := by
  induction l using List.reverseRecOn with
  | nil => rfl
  | append_singleton xs x ih =>
    have hlen : (xs ++ [x]).length = xs.length + 1 := by simp
    rw [hlen, List.range_succ, List.filterMap_append]
    have h1 : (List.range xs.length).filterMap
        (fun i => ((xs ++ [x])[i]?).map (fun a => (i, a))) =
        (List.range xs.length).filterMap (fun i => (xs[i]?).map (fun a => (i, a))) := by
      apply List.filterMap_congr
      intro i hi
      rw [List.getElem?_append_left (List.mem_range.mp hi)]
    have h2 : (xs ++ [x])[xs.length]? = some x := by
      rw [List.getElem?_append_right (Nat.le_refl _)]
      simp
    rw [h1, ih, List.enum_append, List.enumFrom_singleton]
    congr 1
    simp [List.filterMap_cons, h2]

theorem map_snd_filterMap_idx {α : Type} (l : List α) (idx : List ℕ) :
    ((idx.filterMap (fun i => (l[i]?).map (fun a => (i, a)))).map
        (fun x => x.2)) = idx.filterMap (fun i => l[i]?) := by
  induction idx with
  | nil => rfl
  | cons i t ih =>
    cases h : l[i]? with
    | none => simp [List.filterMap_cons, h, ih]
    | some a => simp [List.filterMap_cons, h, ih]

theorem npSortDesc_small {α : Type} (pct : α → Option ℚ) (l : List α)
    (hlen : l.length ≤ 16) :
    npSortDesc pct l = l.mergeSort (fun a b => descLE (pct a) (pct b)) := by
  have hk : (nonNanIdx (l.map pct)).length ≤ 16 := by
    have h1 := nonNanIdx_length_le (l.map pct)
    rw [List.length_map] at h1
    omega
  have hperm : (npIndexer (l.map pct)).Perm (List.range l.length) := by
    have h := npIndexer_perm (l.map pct) hk
    rwa [List.length_map] at h
  have hPperm : ((npIndexer (l.map pct)).filterMap
      (fun i => (l[i]?).map (fun a => (i, a)))).Perm l.enum := by
    have h1 := hperm.filterMap (fun i => (l[i]?).map (fun a => (i, a)))
    rwa [filterMap_enum_range] at h1
  have hPpw : ((npIndexer (l.map pct)).filterMap
      (fun i => (l[i]?).map (fun a => (i, a)))).Pairwise
      (fun x y => List.enumLE (fun u w => descLE (pct u) (pct w)) x y = true) := by
    rw [List.pairwise_filterMap]
    refine (npIndexer_pairwise pct l hlen).imp ?_
    intro i j hR b1 hb1 b2 hb2
    rw [Option.mem_def] at hb1 hb2
    obtain ⟨a1, ha1, rfl⟩ := Option.map_eq_some'.mp hb1
    obtain ⟨a2, ha2, rfl⟩ := Option.map_eq_some'.mp hb2
    exact hR a1 a2 ha1 ha2
  have hMperm : (List.mergeSort l.enum
      (List.enumLE (fun u w => descLE (pct u) (pct w)))).Perm l.enum :=
    List.mergeSort_perm _ _
  have hMpw : (List.mergeSort l.enum
      (List.enumLE (fun u w => descLE (pct u) (pct w)))).Pairwise
      (fun x y => List.enumLE (fun u w => descLE (pct u) (pct w)) x y = true) := by
    apply List.sorted_mergeSort
    · exact List.enumLE_trans
        (fun u w z h1 h2 => descLE_trans (pct u) (pct w) (pct z) h1 h2)
    · exact List.enumLE_total (fun u w => descLE_total (pct u) (pct w))
  have hanti : ∀ (x y : ℕ × α),
      x ∈ (npIndexer (l.map pct)).filterMap
        (fun i => (l[i]?).map (fun a => (i, a))) →
      y ∈ List.mergeSort l.enum (List.enumLE (fun u w => descLE (pct u) (pct w))) →
      List.enumLE (fun u w => descLE (pct u) (pct w)) x y = true →
      List.enumLE (fun u w => descLE (pct u) (pct w)) y x = true → x = y := by
    intro x y hx hy hxy hyx
    obtain ⟨i, a⟩ := x
    obtain ⟨j, b⟩ := y
    have hia := List.mem_enum_iff_getElem?.mp (hPperm.subset hx)
    have hjb := List.mem_enum_iff_getElem?.mp (hMperm.subset hy)
    simp only [List.enumLE] at hxy hyx
    by_cases hab : descLE (pct a) (pct b) = true
    · by_cases hba : descLE (pct b) (pct a) = true
      · rw [if_pos hab, if_pos hba] at hxy
        rw [if_pos hba, if_pos hab] at hyx
        have hij : i = j :=
          Nat.le_antisymm (of_decide_eq_true hxy) (of_decide_eq_true hyx)
        subst hij
        have hsome : some a = some b := hia.symm.trans hjb
        rw [Option.some.inj hsome]
      · rw [if_neg hba] at hyx
        exact absurd hyx (by simp)
    · rw [if_neg hab] at hxy
      exact absurd hxy (by simp)
  have hPM := List.Perm.eq_of_sorted hanti hPpw hMpw (hPperm.trans hMperm.symm)
  show (npIndexer (l.map pct)).filterMap (fun i => l[i]?) = _
  rw [← map_snd_filterMap_idx l (npIndexer (l.map pct)), hPM]
  exact List.mergeSort_enum

theorem stepTop_small {α : Type} (df : FilterDF α) (k : ℕ) (l : List α)
    (hp : df.hasPct = true) (hlen : l.length ≤ 16) :
    stepTop df (some (k + 1)) l = (l.mergeSort df.rowLE).take (k + 1) := by
  unfold stepTop
  rw [if_pos (by rw [hp]; rfl)]
  have e : npSortDesc df.pct l = l.mergeSort df.rowLE :=
    npSortDesc_small df.pct l hlen
  rw [e]
  rfl

/-- Records used in concrete filter witnesses: the frame over record ids 0,1,2
with Class "A", Section "X" everywhere, Percentages 50, 50 and NaN. -/
def wDF : FilterDF ℕ :=
  { hasClass := true
    hasSection := true
    hasPct := true
    cls := fun _ => "A"
    sec := fun _ => "X"
    pct := fun i => if i = 0 then some 50 else if i = 1 then some 50 else none
    rows := [0, 1, 2] }

/-- Seventeen records whose Percentages all tie at 50: one element beyond
numpy's insertion-sort regime, so the quicksort partition permutes them. -/
def w17 : FilterDF ℕ :=
  { hasClass := true
    hasSection := true
    hasPct := true
    cls := fun _ => "A"
    sec := fun _ => "X"
    pct := fun _ => some 50
    rows := [0, 1, 2, 3, 4, 5, 6, 7, 8, 9, 10, 11, 12, 13, 14, 15, 16] }

/-- C5 counterexample: on the 17-record all-tie frame with top_n 17,
refiltering the filtered frame with identical arguments (including top_n)
applies the same non-identity tie permutation of the quicksort partition a
second time, so the result differs from filtering once. -/
theorem filter_data_not_idempotent_counterexample :
    filter_data { w17 with rows := filter_data w17 "All" "All" 0 (some 17) }
        "All" "All" 0 (some 17) ≠
      filter_data w17 "All" "All" 0 (some 17) := by
  decide

/-- C5 (amended): the (class, section, min_percent) filter is idempotent, and
this extends to an unchanged top_n whenever the top-N sort does not run (falsy
top_n or no Percentage column) or the filtered record set has at most 16
records, numpy's insertion-sort regime where the sort is stable; beyond it the
default quicksort can permute tied records again on the second pass. -/
theorem filter_data_idempotent_amended {α : Type} (df : FilterDF α)
    (c s : String) (m : ℚ) (t : Option ℕ) :
    ((truthy t && df.hasPct) = false →
      filter_data { df with rows := filter_data df c s m t } c s m t =
        filter_data df c s m t) ∧
    ((filter_data df c s m none).length ≤ 16 →
      filter_data { df with rows := filter_data df c s m t } c s m t =
        filter_data df c s m t) := by
  have h1 : stepClass df c (filter_data df c s m t) = filter_data df c s m t :=
    stepClass_eq_self (fun r hr hc =>
      stepClass_pred (mem_of_mem_stepSection (mem_of_mem_stepMin
        (mem_of_mem_stepTop hr))) hc)
  have h2 : stepSection df s (filter_data df c s m t) = filter_data df c s m t :=
    stepSection_eq_self (fun r hr hc =>
      stepSection_pred (mem_of_mem_stepMin (mem_of_mem_stepTop hr)) hc)
  have h3 : stepMin df m (filter_data df c s m t) = filter_data df c s m t :=
    stepMin_eq_self (fun r hr hc =>
      stepMin_pred (mem_of_mem_stepTop hr) hc)
  constructor
  · intro hcond
    show stepTop df t (stepMin df m (stepSection df s
        (stepClass df c (filter_data df c s m t)))) = filter_data df c s m t
    rw [h1, h2, h3]
    unfold stepTop
    rw [if_neg (by rw [hcond]; exact Bool.false_ne_true)]
  · intro hsmall
    show stepTop df t (stepMin df m (stepSection df s
        (stepClass df c (filter_data df c s m t)))) = filter_data df c s m t
    rw [h1, h2, h3]
    by_cases hcond : (truthy t && df.hasPct) = true
    · have hp : df.hasPct = true := by
        have h := hcond
        simp only [Bool.and_eq_true] at h
        exact h.2
      rcases t with _ | n
      · simp [truthy] at hcond
      obtain ⟨k, rfl⟩ : ∃ k, n = k + 1 := by
        rcases n with _ | k
        · simp [truthy] at hcond
        · exact ⟨k, rfl⟩
      have hx : filter_data df c s m (some (k + 1)) =
          ((filter_data df c s m none).mergeSort df.rowLE).take (k + 1) :=
        stepTop_small df k _ hp hsmall
      have hsorted : (filter_data df c s m (some (k + 1))).Pairwise
          (fun a b => df.rowLE a b = true) := by
        rw [hx]
        exact List.Pairwise.sublist (List.take_sublist _ _)
          (List.sorted_mergeSort (rowLE_trans df) (rowLE_total df) _)
      have hlenX : (filter_data df c s m (some (k + 1))).length ≤ k + 1 := by
        rw [hx]
        simpa using List.length_take_le _ _
      have hlen16 : (filter_data df c s m (some (k + 1))).length ≤ 16 := by
        rw [hx]
        have hle1 : (((filter_data df c s m none).mergeSort df.rowLE).take
            (k + 1)).length ≤
            ((filter_data df c s m none).mergeSort df.rowLE).length := by
          rw [List.length_take]
          exact min_le_right _ _
        have hle2 : ((filter_data df c s m none).mergeSort df.rowLE).length =
            (filter_data df c s m none).length :=
          (List.mergeSort_perm _ _).length_eq
        omega
      rw [stepTop_small df k (filter_data df c s m (some (k + 1))) hp hlen16]
      rw [List.mergeSort_of_sorted hsorted]
      exact List.take_of_length_le hlenX
    · unfold stepTop
      rw [if_neg hcond]

/-- C5 witness: idempotence instantiated at a concrete 3-record frame with an
unchanged top_n of 2. -/
theorem filter_data_idempotent_amended_witness :
    (filter_data wDF "All" "All" 0 none).length ≤ 16 ∧
    filter_data { wDF with rows := filter_data wDF "All" "All" 0 (some 2) }
        "All" "All" 0 (some 2) =
      filter_data wDF "All" "All" 0 (some 2) :=
  ⟨by decide,
    (filter_data_idempotent_amended wDF "All" "All" 0 (some 2)).2 (by decide)⟩

/-- C6 counterexample: on the 17-record all-tie frame the claimed stable sort
would return the records in input order, but `sort_values` with numpy's
default quicksort parks the pivot entry at position 15, and its exchange scan
then swaps the tie pairs, returning them permuted. -/
theorem topn_sort_unstable_counterexample :
    w17.hasPct = true ∧ (∀ r ∈ w17.rows, w17.pct r = some 50) ∧
    filter_data w17 "All" "All" 0 (some 17) =
      [0, 9, 15, 14, 13, 12, 11, 10, 8, 1, 7, 6, 5, 4, 3, 2, 16] ∧
    filter_data w17 "All" "All" 0 (some 17) ≠ w17.rows := by
  refine ⟨rfl, by decide, by decide, by decide⟩

/-- C6 (amended): pandas `sort_values` uses numpy's default quicksort, which
reorders tie runs longer than its 16-element insertion-sort regime, so the
claimed stability holds on small frames: whenever the frame has a Percentage
column, top_n is truthy, and the result of the other filters has at most 16
records, the top-N step equals the stable descending Percentage sort of the
result of the other filters truncated to the first top_n records: the sorted
list is a permutation of the filtered records, it is pairwise descending with
NaN last, and any pair already correctly ordered in the input (in particular
any tie) keeps its relative order in the sorted output. -/
theorem topn_stable_sort_small {α : Type} (df : FilterDF α) (c s : String)
    (m : ℚ) (n : ℕ) (hp : df.hasPct = true) (hn : n ≠ 0)
    (hsmall : (filter_data df c s m none).length ≤ 16) :
    filter_data df c s m (some n) =
      ((filter_data df c s m none).mergeSort df.rowLE).take n ∧
    ((filter_data df c s m none).mergeSort df.rowLE).Perm
      (filter_data df c s m none) ∧
    ((filter_data df c s m none).mergeSort df.rowLE).Pairwise
      (fun a b => df.rowLE a b = true) ∧
    ∀ a b : α, [a, b].Sublist (filter_data df c s m none) →
      df.rowLE a b = true →
      [a, b].Sublist ((filter_data df c s m none).mergeSort df.rowLE) := by
  obtain ⟨k, rfl⟩ : ∃ k, n = k + 1 := ⟨n - 1, by omega⟩
  refine ⟨?_, List.mergeSort_perm _ _,
    List.sorted_mergeSort (rowLE_trans df) (rowLE_total df) _,
    fun a b hab hle =>
      List.pair_sublist_mergeSort (rowLE_trans df) (rowLE_total df) hle hab⟩
  exact stepTop_small df k
    (stepMin df m (stepSection df s (stepClass df c df.rows))) hp hsmall

/-- C6 witness: the small-frame top-N characterization instantiated on a
concrete 3-record frame. -/
theorem topn_stable_sort_small_witness :
    wDF.hasPct = true ∧ (2 : ℕ) ≠ 0 ∧
    (filter_data wDF "All" "All" 0 none).length ≤ 16 ∧
    filter_data wDF "All" "All" 0 (some 2) =
      ((filter_data wDF "All" "All" 0 none).mergeSort wDF.rowLE).take 2 :=
  ⟨rfl, by decide, by decide,
    (topn_stable_sort_small wDF "All" "All" 0 2 rfl (by decide) (by decide)).1⟩

/-- C10: for a frame with a Percentage column, a positive min_percent makes
filter_data drop every record whose Percentage is NaN (a missing value never
satisfies the comparison), while with min_percent 0 and no other filter active
the frame is returned unchanged, so those NaN records are retained. -/
theorem min_percent_drops_nan {α : Type} (df : FilterDF α) (c s : String)
    (m : ℚ) (hp : df.hasPct = true) :
    (0 < m → ∀ r ∈ filter_data df c s m none, (df.pct r).isSome = true) ∧
    filter_data df "All" "All" 0 none = df.rows := by
  constructor
  · intro hm r hr
    have hr' : r ∈ stepMin df m (stepSection df s (stepClass df c df.rows)) := hr
    have hpred := stepMin_pred hr' (by simp [hp, hm])
    cases hpct : df.pct r with
    | none =>
      rw [hpct] at hpred
      simp at hpred
    | some p => simp
  · rfl

/-- C10 witness: on the concrete frame, record 0 (which survives the positive
threshold) has a present Percentage, and the zero threshold keeps the frame
unchanged. -/
theorem min_percent_drops_nan_witness :
    wDF.hasPct = true ∧ (wDF.pct 0).isSome = true ∧
    filter_data wDF "All" "All" 0 none = wDF.rows :=
  ⟨rfl,
    (min_percent_drops_nan wDF "All" "All" 10 rfl).1 (by decide) 0 (by decide),
    (min_percent_drops_nan wDF "X" "X" 10 rfl).2⟩

/-! ### Decimal digits: printing and parsing

`load_data` and `export_data` round-trip cell values through their text form.
The text form of numbers is modelled by exact decimal literals. -/

/-- The character for a decimal digit value. -/
def digitChar (d : ℕ) : Char := Char.ofNat (48 + d)

/-- Whether a character is a decimal digit. -/
def isDigitChar (c : Char) : Bool := 48 ≤ c.toNat && c.toNat ≤ 57

/-- The digit value of a character. -/
def charVal (c : Char) : ℕ := c.toNat - 48

/-- Base-10 digit values of a natural number, least significant first (empty
for 0). -/
def natDigitsRevAux : ℕ → ℕ → List ℕ
  | _, 0 => []
  | 0, _ + 1 => []
  | f + 1, n + 1 => (n + 1) % 10 :: natDigitsRevAux f ((n + 1) / 10)

/-- Base-10 digit values of a natural number, least significant first (empty
for 0); the fuel argument makes the recursion structural. -/
def natDigitsRev (n : ℕ) : List ℕ := natDigitsRevAux n n

theorem natDigitsRevAux_congr (f1 f2 n : ℕ) (h1 : n ≤ f1) (h2 : n ≤ f2) :
    natDigitsRevAux f1 n = natDigitsRevAux f2 n := by
  induction n using Nat.strong_induction_on generalizing f1 f2 with
  | _ n ih =>
    rcases n with _ | m
    · rcases f1 with _ | g1 <;> rcases f2 with _ | g2 <;> rfl
    · rcases f1 with _ | g1
      · omega
      rcases f2 with _ | g2
      · omega
      show (m + 1) % 10 :: natDigitsRevAux g1 ((m + 1) / 10) =
        (m + 1) % 10 :: natDigitsRevAux g2 ((m + 1) / 10)
      have hlt : (m + 1) / 10 < m + 1 := Nat.div_lt_self (by omega) (by omega)
      rw [ih ((m + 1) / 10) hlt g1 g2 (by omega) (by omega)]

theorem natDigitsRev_eq (n : ℕ) :
    natDigitsRev n = if n = 0 then [] else n % 10 :: natDigitsRev (n / 10) := by
  rcases n with _ | m
  · rfl
  · rw [if_neg (by omega)]
    show natDigitsRevAux (m + 1) (m + 1) = (m + 1) % 10 :: natDigitsRev ((m + 1) / 10)
    have hlt : (m + 1) / 10 < m + 1 := Nat.div_lt_self (by omega) (by omega)
    show (m + 1) % 10 :: natDigitsRevAux m ((m + 1) / 10) = _
    rw [natDigitsRevAux_congr m ((m + 1) / 10) ((m + 1) / 10) (by omega) (by omega)]
    rfl

/-- Value of little-endian digit values. -/
def valRev : List ℕ → ℕ
  | [] => 0
  | d :: ds => d + 10 * valRev ds

/-- Decimal character representation of a natural number. -/
def natChars (n : ℕ) : List Char :=
  if n = 0 then ['0'] else ((natDigitsRev n).map digitChar).reverse

/-- Decimal string of a natural number (used for synthesized names). -/
def natStr (n : ℕ) : String := ⟨natChars n⟩

/-- Value of big-endian digit characters. -/
def digitsVal (cs : List Char) : ℕ :=
  cs.foldl (fun a c => 10 * a + charVal c) 0

/-- Parse a non-empty all-digit character list. -/
def parseNat (cs : List Char) : Option ℕ :=
  if cs.isEmpty then none
  else if cs.all isDigitChar then some (digitsVal cs) else none

theorem valRev_natDigitsRev (n : ℕ) : valRev (natDigitsRev n) = n := by
  induction n using Nat.strong_induction_on with
  | _ n ih =>
    rw [natDigitsRev_eq]
    split
    · rename_i h
      simp [valRev, h]
    · rename_i h
      have hlt : n / 10 < n := Nat.div_lt_self (Nat.pos_of_ne_zero h) (by omega)
      simp only [valRev, ih (n / 10) hlt]
      omega

theorem natDigitsRev_lt_ten (n : ℕ) : ∀ d ∈ natDigitsRev n, d < 10 := by
  induction n using Nat.strong_induction_on with
  | _ n ih =>
    rw [natDigitsRev_eq]
    split
    · simp
    · rename_i h
      have hlt : n / 10 < n := Nat.div_lt_self (Nat.pos_of_ne_zero h) (by omega)
      intro d hd
      rcases List.mem_cons.mp hd with rfl | hd'
      · omega
      · exact ih (n / 10) hlt d hd'

theorem natDigitsRev_ne_nil (n : ℕ) (h : n ≠ 0) : natDigitsRev n ≠ [] := by
  rw [natDigitsRev_eq]
  simp [h]

theorem charVal_digitChar {d : ℕ} (h : d < 10) : charVal (digitChar d) = d := by
  interval_cases d <;> decide

theorem isDigitChar_digitChar {d : ℕ} (h : d < 10) :
    isDigitChar (digitChar d) = true := by
  interval_cases d <;> decide

theorem digitsVal_append (cs ds : List Char) :
    digitsVal (cs ++ ds) =
      digitsVal cs * 10 ^ ds.length + digitsVal ds := by
  induction ds using List.reverseRecOn with
  | nil => simp [digitsVal]
  | append_singleton ds d ih =>
    rw [← List.append_assoc]
    simp only [digitsVal, List.foldl_append, List.foldl_cons, List.foldl_nil] at ih ⊢
    rw [ih]
    simp [List.length_append, pow_succ]
    ring

theorem digitsVal_revMap (ds : List ℕ) (h : ∀ d ∈ ds, d < 10) :
    digitsVal ((ds.map digitChar).reverse) = valRev ds := by
  induction ds with
  | nil => simp [digitsVal, valRev]
  | cons d tail ih =>
    simp only [List.map_cons, List.reverse_cons]
    rw [digitsVal_append]
    have hd : d < 10 := h d (by simp)
    have htail : ∀ x ∈ tail, x < 10 := fun x hx => h x (by simp [hx])
    rw [ih htail]
    simp only [valRev, List.length_cons, List.length_nil, pow_one, digitsVal,
      List.foldl_cons, List.foldl_nil]
    rw [charVal_digitChar hd]
    ring

theorem parseNat_natChars (n : ℕ) : parseNat (natChars n) = some n := by
  unfold natChars
  split
  · rename_i h
    subst h
    decide
  · rename_i h
    unfold parseNat
    have hne : natDigitsRev n ≠ [] := natDigitsRev_ne_nil n h
    have hlt := natDigitsRev_lt_ten n
    have hempty : (((natDigitsRev n).map digitChar).reverse).isEmpty = false := by
      rw [List.isEmpty_eq_false_iff_exists_mem]
      obtain ⟨d, hd⟩ := List.exists_mem_of_ne_nil _ hne
      exact ⟨digitChar d, by simp; exact ⟨d, hd, rfl⟩⟩
    rw [hempty]
    have hall : (((natDigitsRev n).map digitChar).reverse).all isDigitChar = true := by
      rw [List.all_eq_true]
      intro c hc
      simp only [List.mem_reverse, List.mem_map] at hc
      obtain ⟨d, hd, rfl⟩ := hc
      exact isDigitChar_digitChar (hlt d hd)
    simp only [Bool.false_eq_true, if_false, hall, if_true]
    rw [digitsVal_revMap _ hlt, valRev_natDigitsRev]

theorem digitsVal_replicate_zero (k : ℕ) (cs : List Char) :
    digitsVal (List.replicate k '0' ++ cs) = digitsVal cs := by
  induction k with
  | zero => simp
  | succ k ih =>
    simp only [List.replicate_succ, List.cons_append, digitsVal, List.foldl_cons]
    simpa [digitsVal, charVal] using ih

/-- An exact decimal literal `m / 10 ^ e`, the value form numbers take when
parsed from tabular text. -/
structure Dec where
  m : ℤ
  e : ℕ
deriving DecidableEq

/-- Decimal characters of an integer. -/
def intChars (m : ℤ) : List Char :=
  if m < 0 then '-' :: natChars m.natAbs else natChars m.natAbs

/-- The digit characters of `a` left-padded with zeros to at least `e + 1`
digits. -/
def padDigits (a e : ℕ) : List Char :=
  List.replicate (e + 1 - (natChars a).length) '0' ++ natChars a

/-- The digits of `a` with a point inserted before the last `e` digits. -/
def fracChars (a e : ℕ) : List Char :=
  (padDigits a e).take ((padDigits a e).length - e) ++
    '.' :: (padDigits a e).drop ((padDigits a e).length - e)

/-- Decimal characters of a decimal literal: `e = 0` prints as an integer
(an int64 column), `e > 0` prints with exactly `e` digits after the point
(a float64 column). -/
def decChars (d : Dec) : List Char :=
  if d.e = 0 then intChars d.m
  else if d.m < 0 then '-' :: fracChars d.m.natAbs d.e
  else fracChars d.m.natAbs d.e

/-- Split a character list at its first point character. -/
def splitDot : List Char → List Char × Option (List Char)
  | [] => ([], none)
  | c :: rest =>
    if c = '.' then ([], some rest)
    else ((c :: (splitDot rest).1), (splitDot rest).2)

/-- Parse an unsigned decimal literal: digits with at most one point, and at
least one digit on each side of the point. -/
def parseDecNN (cs : List Char) : Option Dec :=
  match splitDot cs with
  | (ds, none) => (parseNat ds).map (fun n => ⟨(n : ℤ), 0⟩)
  | (pre, some post) =>
    match parseNat pre, parseNat post with
    | some _, some _ => some ⟨(digitsVal (pre ++ post) : ℤ), post.length⟩
    | _, _ => none

/-- Parse a decimal literal with an optional leading minus sign. -/
def parseDec (cs : List Char) : Option Dec :=
  match cs with
  | [] => none
  | c :: rest =>
    if c = '-' then (parseDecNN rest).map (fun d => ⟨-d.m, d.e⟩)
    else parseDecNN (c :: rest)

theorem natChars_ne_nil (n : ℕ) : natChars n ≠ [] := by
  unfold natChars
  split
  · simp
  · rename_i h
    simp only [ne_eq, List.reverse_eq_nil_iff, List.map_eq_nil_iff]
    exact natDigitsRev_ne_nil n h

theorem natChars_all_digits (n : ℕ) : ∀ c ∈ natChars n, isDigitChar c = true := by
  unfold natChars
  split
  · intro c hc
    simp only [List.mem_singleton] at hc
    subst hc
    decide
  · intro c hc
    simp only [List.mem_reverse, List.mem_map] at hc
    obtain ⟨d, hd, rfl⟩ := hc
    exact isDigitChar_digitChar (natDigitsRev_lt_ten n d hd)

theorem digitsVal_natChars (n : ℕ) : digitsVal (natChars n) = n := by
  unfold natChars
  split
  · rename_i h
    subst h
    decide
  · rename_i h
    rw [digitsVal_revMap _ (natDigitsRev_lt_ten n), valRev_natDigitsRev]

theorem digit_ne_dot {c : Char} (h : isDigitChar c = true) : ¬ c = '.' := by
  intro hc
  subst hc
  revert h
  decide

theorem digit_ne_minus {c : Char} (h : isDigitChar c = true) : ¬ c = '-' := by
  intro hc
  subst hc
  revert h
  decide

theorem parseDec_cons (c : Char) (t : List Char) :
    parseDec (c :: t) =
      if c = '-' then (parseDecNN t).map (fun d => ⟨-d.m, d.e⟩)
      else parseDecNN (c :: t) := rfl

theorem splitDot_no_dot (cs : List Char) (h : ∀ c ∈ cs, ¬ c = '.') :
    splitDot cs = (cs, none) := by
  induction cs with
  | nil => rfl
  | cons c rest ih =>
    unfold splitDot
    rw [if_neg (h c (by simp))]
    rw [ih (fun x hx => h x (by simp [hx]))]

theorem splitDot_append (pre post : List Char) (h : ∀ c ∈ pre, ¬ c = '.') :
    splitDot (pre ++ '.' :: post) = (pre, some post) := by
  induction pre with
  | nil =>
    unfold splitDot
    simp
  | cons c rest ih =>
    simp only [List.cons_append]
    unfold splitDot
    rw [if_neg (h c (by simp))]
    rw [ih (fun x hx => h x (by simp [hx]))]

theorem parseNat_of_digits (cs : List Char) (hne : cs ≠ [])
    (hall : ∀ c ∈ cs, isDigitChar c = true) :
    parseNat cs = some (digitsVal cs) := by
  unfold parseNat
  rw [if_neg (by simpa using hne)]
  rw [if_pos (List.all_eq_true.mpr hall)]

theorem padDigits_digits (a e : ℕ) : ∀ c ∈ padDigits a e, isDigitChar c = true := by
  intro c hc
  rcases List.mem_append.mp hc with hc' | hc'
  · have := List.eq_of_mem_replicate hc'
    subst this
    decide
  · exact natChars_all_digits a c hc'

theorem padDigits_length (a e : ℕ) : e + 1 ≤ (padDigits a e).length := by
  have h1 : 1 ≤ (natChars a).length := by
    have := natChars_ne_nil a
    cases h : natChars a with
    | nil => exact absurd h this
    | cons c t => simp [h]
  unfold padDigits
  simp only [List.length_append, List.length_replicate]
  omega

theorem digitsVal_padDigits (a e : ℕ) : digitsVal (padDigits a e) = a := by
  unfold padDigits
  rw [digitsVal_replicate_zero, digitsVal_natChars]

theorem parseDecNN_fracChars (a e : ℕ) (he : e ≠ 0) :
    parseDecNN (fracChars a e) = some ⟨(a : ℤ), e⟩ := by
  have hlen := padDigits_length a e
  have hdig := padDigits_digits a e
  have hpre_digits : ∀ c ∈ (padDigits a e).take ((padDigits a e).length - e),
      isDigitChar c = true :=
    fun c hc => hdig c (List.mem_of_mem_take hc)
  have hpost_digits : ∀ c ∈ (padDigits a e).drop ((padDigits a e).length - e),
      isDigitChar c = true :=
    fun c hc => hdig c (List.mem_of_mem_drop hc)
  have hpre_len : ((padDigits a e).take ((padDigits a e).length - e)).length =
      (padDigits a e).length - e := by
    rw [List.length_take]
    omega
  have hpost_len : ((padDigits a e).drop ((padDigits a e).length - e)).length = e := by
    rw [List.length_drop]
    omega
  have hpre_ne : (padDigits a e).take ((padDigits a e).length - e) ≠ [] := by
    intro h
    rw [h] at hpre_len
    simp only [List.length_nil] at hpre_len
    omega
  have hpost_ne : (padDigits a e).drop ((padDigits a e).length - e) ≠ [] := by
    intro h
    rw [h] at hpost_len
    simp only [List.length_nil] at hpost_len
    omega
  unfold fracChars parseDecNN
  rw [splitDot_append _ _ (fun c hc => digit_ne_dot (hpre_digits c hc))]
  simp only [parseNat_of_digits _ hpre_ne hpre_digits,
    parseNat_of_digits _ hpost_ne hpost_digits]
  rw [List.take_append_drop, digitsVal_padDigits, hpost_len]

theorem fracChars_cons (a e : ℕ) (he : e ≠ 0) :
    ∃ c t, fracChars a e = c :: t ∧ isDigitChar c = true := by
  have hlen := padDigits_length a e
  have hpre_len : ((padDigits a e).take ((padDigits a e).length - e)).length =
      (padDigits a e).length - e := by
    rw [List.length_take]
    omega
  have hpre_ne : (padDigits a e).take ((padDigits a e).length - e) ≠ [] := by
    intro h
    rw [h] at hpre_len
    simp only [List.length_nil] at hpre_len
    omega
  obtain ⟨c, t, hct⟩ := List.exists_cons_of_ne_nil hpre_ne
  refine ⟨c, t ++ '.' :: (padDigits a e).drop ((padDigits a e).length - e),
    ?_, ?_⟩
  · unfold fracChars
    rw [hct]
    simp
  · apply padDigits_digits a e
    apply List.mem_of_mem_take
    rw [hct]
    simp

theorem parseDec_decChars (d : Dec) : parseDec (decChars d) = some d := by
  obtain ⟨m, e⟩ := d
  have habs : ∀ c ∈ natChars m.natAbs, isDigitChar c = true :=
    natChars_all_digits m.natAbs
  rcases e with _ | s
  · -- integer form
    rw [show decChars ⟨m, 0⟩ = intChars m from by simp [decChars]]
    unfold intChars
    by_cases hm : m < 0
    · rw [if_pos hm]
      rw [parseDec_cons, if_pos rfl]
      unfold parseDecNN
      rw [splitDot_no_dot _ (fun c hc => digit_ne_dot (habs c hc))]
      simp only [parseNat_natChars, Option.map_some]
      have hval : ((m.natAbs : ℤ)) = -m := by omega
      simp [hval]
    · rw [if_neg hm]
      obtain ⟨c, t, hct⟩ := List.exists_cons_of_ne_nil (natChars_ne_nil m.natAbs)
      have hcdig : isDigitChar c = true := by
        apply habs
        rw [hct]
        simp
      rw [hct, parseDec_cons, if_neg (digit_ne_minus hcdig), ← hct]
      unfold parseDecNN
      rw [splitDot_no_dot _ (fun c hc => digit_ne_dot (habs c hc))]
      simp only [parseNat_natChars, Option.map_some]
      have hval : ((m.natAbs : ℤ)) = m := by omega
      simp [hval]
  · -- fractional form with s+1 digits after the point
    have hs : ¬ (s + 1 = 0) := by omega
    rw [show decChars ⟨m, s + 1⟩ =
        (if m < 0 then '-' :: fracChars m.natAbs (s + 1)
         else fracChars m.natAbs (s + 1)) from by simp [decChars]]
    by_cases hm : m < 0
    · rw [if_pos hm]
      rw [parseDec_cons, if_pos rfl]
      rw [parseDecNN_fracChars _ _ hs]
      have hval : ((m.natAbs : ℤ)) = -m := by omega
      simp [hval]
    · rw [if_neg hm]
      obtain ⟨c, t, hct, hcdig⟩ := fracChars_cons m.natAbs (s + 1) hs
      rw [hct, parseDec_cons, if_neg (digit_ne_minus hcdig), ← hct]
      rw [parseDecNN_fracChars _ _ hs]
      have hval : ((m.natAbs : ℤ)) = m := by omega
      simp [hval]

/-! ### Cells and column type inference

`read_csv` infers each column: if every non-missing field parses as a decimal
number the column is numeric, otherwise every non-missing field stays a
string.  Missing-value sentinels (pandas `na_values`; the ones relevant here)
become `NaN`. -/

/-- The pandas missing-value sentinels modelled here (pandas has a longer
default `na_values` list; only `""` is produced by serialization). -/
def naStrings : List String :=
  ["", "NA", "N/A", "NaN", "nan", "NULL", "null", "None", "n/a"]

/-- Whether a raw field is a missing-value sentinel. -/
def isNA (s : String) : Bool := naStrings.contains s

/-- A typed cell of a loaded frame: a decimal number, a string, or `NaN`. -/
inductive Cell where
  | num (d : Dec)
  | str (s : String)
  | na
deriving DecidableEq

/-- Serialization of one cell, as `to_csv` writes it (`NaN` prints empty). -/
def printCell : Cell → String
  | .num d => ⟨decChars d⟩
  | .str s => s
  | .na => ""

/-- A field that does not block numeric inference: missing or numeric. -/
def numericField (f : String) : Bool := isNA f || (parseDec f.data).isSome

/-- Whether the whole column infers as numeric. -/
def colIsNumeric (fields : List String) : Bool := fields.all numericField

/-- Cell of one field in a numeric column. -/
def cellNum (f : String) : Cell :=
  if isNA f then Cell.na
  else match parseDec f.data with
    | some d => Cell.num d
    | none => Cell.str f

/-- Cell of one field in a string column. -/
def cellStr (f : String) : Cell := if isNA f then Cell.na else Cell.str f

/-- Type inference and conversion of one raw column. -/
def readCol (fields : List String) : List Cell :=
  if colIsNumeric fields then fields.map cellNum else fields.map cellStr

theorem isNA_parseDec_none (s : String) (h : isNA s = true) :
    parseDec s.data = none := by
  have hmem : s ∈ naStrings := by
    simpa [isNA] using h
  simp only [naStrings, List.mem_cons, List.mem_singleton] at hmem
  rcases hmem with rfl | rfl | rfl | rfl | rfl | rfl | rfl | rfl | rfl | h
  all_goals first
    | rfl
    | decide
    | exact absurd h (List.not_mem_nil s)

theorem printCell_num_not_na (d : Dec) : isNA ⟨decChars d⟩ = false := by
  by_contra h
  have h' : isNA ⟨decChars d⟩ = true := by
    revert h
    cases isNA (⟨decChars d⟩ : String) <;> simp
  have := isNA_parseDec_none _ h'
  rw [show (String.mk (decChars d)).data = decChars d from rfl] at this
  rw [parseDec_decChars] at this
  exact Option.some_ne_none _ this

theorem isNA_empty : isNA "" = true := by decide

/-- Reading the printed form of a numeric-column cell recovers the cell. -/
theorem cellNum_print (f : String) (hf : numericField f = true) :
    cellNum (printCell (cellNum f)) = cellNum f ∧
      numericField (printCell (cellNum f)) = true := by
  unfold cellNum
  by_cases hna : isNA f = true
  · rw [if_pos hna]
    refine ⟨?_, ?_⟩
    · show cellNum "" = Cell.na
      unfold cellNum
      rw [if_pos isNA_empty]
    · show numericField "" = true
      decide
  · rw [if_neg hna]
    have hpar : (parseDec f.data).isSome = true := by
      unfold numericField at hf
      rcases Bool.or_eq_true_iff.mp hf with h | h
      · exact absurd h hna
      · exact h
    obtain ⟨d, hd⟩ := Option.isSome_iff_exists.mp hpar
    rw [hd]
    refine ⟨?_, ?_⟩
    · show cellNum ⟨decChars d⟩ = Cell.num d
      unfold cellNum
      rw [if_neg (by simp [printCell_num_not_na])]
      rw [show (String.mk (decChars d)).data = decChars d from rfl,
        parseDec_decChars]
    · show numericField ⟨decChars d⟩ = true
      unfold numericField
      rw [show (String.mk (decChars d)).data = decChars d from rfl,
        parseDec_decChars]
      simp

/-- Reading the printed form of a string-column cell recovers the cell. -/
theorem cellStr_print (f : String) :
    cellStr (printCell (cellStr f)) = cellStr f := by
  unfold cellStr
  by_cases hna : isNA f = true
  · rw [if_pos hna]
    show cellStr "" = Cell.na
    unfold cellStr
    rw [if_pos isNA_empty]
  · rw [if_neg hna]
    show cellStr f = Cell.str f
    unfold cellStr
    rw [if_neg hna]

/-- C9 core lemma: re-reading a serialized column reproduces its cells. -/
theorem readCol_print_readCol (fs : List String) :
    readCol ((readCol fs).map printCell) = readCol fs := by
  by_cases hnum : colIsNumeric fs = true
  · have hall := List.all_eq_true.mp hnum
    have hinner : readCol fs = fs.map cellNum := by
      rw [readCol, if_pos hnum]
    have hcol : colIsNumeric ((fs.map cellNum).map printCell) = true := by
      rw [List.map_map, colIsNumeric, List.all_eq_true]
      intro f hf
      obtain ⟨g, hg, rfl⟩ := List.mem_map.mp hf
      exact (cellNum_print g (hall g hg)).2
    rw [hinner, readCol, if_pos hcol, List.map_map, List.map_map]
    apply List.map_congr_left
    intro f hf
    exact (cellNum_print f (hall f hf)).1
  · have hnum' : colIsNumeric fs = false := by
      revert hnum
      cases colIsNumeric fs <;> simp
    obtain ⟨w, hw_mem, hw⟩ : ∃ f ∈ fs, numericField f = false := by
      rcases List.all_eq_false.mp hnum' with ⟨f, hf, hnf⟩
      exact ⟨f, hf, by revert hnf; cases numericField f <;> simp⟩
    have hw_na : isNA w = false := (Bool.or_eq_false_iff.mp hw).1
    have hinner : readCol fs = fs.map cellStr := by
      rw [readCol, if_neg (by rw [hnum']; simp)]
    have hprint_w : printCell (cellStr w) = w := by
      unfold cellStr
      rw [if_neg (by rw [hw_na]; simp)]
      rfl
    have hcol : colIsNumeric (List.map (printCell ∘ cellStr) fs) = false := by
      apply List.all_eq_false.mpr
      refine ⟨(printCell ∘ cellStr) w, List.mem_map_of_mem _ hw_mem, ?_⟩
      show ¬ numericField (printCell (cellStr w)) = true
      rw [hprint_w, hw]
      simp
    rw [hinner, readCol, if_neg (by simp [List.map_map, hcol]),
      List.map_map, List.map_map]
    apply List.map_congr_left
    intro f hf
    exact cellStr_print f

/-! ### Column-name stripping (`df.columns.str.strip()`) -/

/-- Whitespace characters stripped by `str.strip`. -/
def isSpaceChar (c : Char) : Bool :=
  c = ' ' || c = '\t' || c = '\n' || c = '\r'

/-- Strip whitespace from both ends of a character list. -/
def trimBoth (l : List Char) : List Char :=
  ((l.dropWhile isSpaceChar).reverse.dropWhile isSpaceChar).reverse

/-- Strip leading and trailing whitespace from a field name. -/
def strip (s : String) : String := ⟨trimBoth s.data⟩

theorem head?_dropWhile (p : Char → Bool) (l : List Char) :
    ∀ x, (l.dropWhile p).head? = some x → p x = false := by
  induction l with
  | nil => intro x h; cases h
  | cons c rest ih =>
    intro x h
    rw [List.dropWhile_cons] at h
    by_cases hc : p c = true
    · rw [if_pos hc] at h
      exact ih x h
    · rw [if_neg hc] at h
      simp only [List.head?_cons, Option.some_inj] at h
      subst h
      simpa using hc

theorem dropWhile_eq_self_of_head (p : Char → Bool) (l : List Char)
    (h : ∀ x, l.head? = some x → p x = false) : l.dropWhile p = l := by
  cases l with
  | nil => rfl
  | cons c rest =>
    rw [List.dropWhile_cons, if_neg]
    rw [h c rfl]
    simp

theorem getLast?_dropWhile (p : Char → Bool) (l : List Char)
    (h : l.dropWhile p ≠ []) : (l.dropWhile p).getLast? = l.getLast? := by
  induction l with
  | nil => simp at h
  | cons c rest ih =>
    rw [List.dropWhile_cons] at h ⊢
    by_cases hc : p c = true
    · rw [if_pos hc] at h ⊢
      rw [ih h]
      have hrest : rest ≠ [] := by
        intro hnil
        rw [hnil] at h
        simp [List.dropWhile] at h
      obtain ⟨r, rs, rfl⟩ := List.exists_cons_of_ne_nil hrest
      rw [List.getLast?_cons_cons]
    · rw [if_neg hc]

theorem trimBoth_eq_self (l : List Char)
    (hh : ∀ x, l.head? = some x → isSpaceChar x = false)
    (hl : ∀ x, l.getLast? = some x → isSpaceChar x = false) :
    trimBoth l = l := by
  unfold trimBoth
  rw [dropWhile_eq_self_of_head _ _ hh]
  rw [dropWhile_eq_self_of_head _ _ (by
    intro x hx
    rw [List.head?_reverse] at hx
    exact hl x hx)]
  rw [List.reverse_reverse]

theorem trimBoth_idem (l : List Char) : trimBoth (trimBoth l) = trimBoth l := by
  by_cases hnil : trimBoth l = []
  · rw [hnil]
    rfl
  · have hv : (l.dropWhile isSpaceChar).reverse.dropWhile isSpaceChar ≠ [] := by
      intro h
      apply hnil
      unfold trimBoth
      rw [h]
      rfl
    have hhead : ∀ x, (trimBoth l).head? = some x → isSpaceChar x = false := by
      intro x hx
      unfold trimBoth at hx
      rw [List.head?_reverse] at hx
      rw [getLast?_dropWhile _ _ hv] at hx
      rw [List.getLast?_reverse] at hx
      exact head?_dropWhile _ _ x hx
    have hlast : ∀ x, (trimBoth l).getLast? = some x → isSpaceChar x = false := by
      intro x hx
      unfold trimBoth at hx
      rw [List.getLast?_reverse] at hx
      exact head?_dropWhile _ _ x hx
    exact trimBoth_eq_self _ hhead hlast

theorem strip_idem (s : String) : strip (strip s) = strip s := by
  unfold strip
  rw [show (String.mk (trimBoth s.data)).data = trimBoth s.data from rfl]
  rw [trimBoth_idem]

/-! ### Duplicate-name mangling, tables, load and export -/

/-- Occurrence count recorded for a name while mangling. -/
def lookupCount (nm : String) : List (String × ℕ) → ℕ
  | [] => 0
  | p :: rest => if p.1 = nm then p.2 else lookupCount nm rest

/-- Record one more occurrence of a name. -/
def bump (nm : String) : List (String × ℕ) → List (String × ℕ)
  | [] => [(nm, 1)]
  | p :: rest => if p.1 = nm then (p.1, p.2 + 1) :: rest else p :: bump nm rest

/-- pandas `dedup_names`: a repeated column name gets `.k` appended, where `k`
counts previous occurrences (the rare further collision of the renamed name
with a later column is not modelled). -/
def mangleAux : List (String × ℕ) → List String → List String
  | _, [] => []
  | seen, nm :: rest =>
    if lookupCount nm seen = 0 then
      nm :: mangleAux (bump nm seen) rest
    else
      (nm ++ "." ++ natStr (lookupCount nm seen)) ::
        mangleAux (bump (nm ++ "." ++ natStr (lookupCount nm seen))
          (bump nm seen)) rest

/-- Mangled header names, as `read_csv` produces them. -/
def mangle (l : List String) : List String := mangleAux [] l

theorem lookupCount_bump_ne (nm nm2 : String) (seen : List (String × ℕ))
    (h : ¬ nm2 = nm) : lookupCount nm2 (bump nm seen) = lookupCount nm2 seen := by
  induction seen with
  | nil =>
    simp only [bump, lookupCount]
    rw [if_neg (fun hc => h hc.symm)]
  | cons p rest ih =>
    simp only [bump]
    by_cases hp : p.1 = nm
    · rw [if_pos hp]
      simp only [lookupCount]
      rw [if_neg (by rw [hp]; intro hc; exact h hc.symm),
        if_neg (by rw [hp]; intro hc; exact h hc.symm)]
    · rw [if_neg hp]
      simp only [lookupCount]
      by_cases hq : p.1 = nm2
      · rw [if_pos hq, if_pos hq]
      · rw [if_neg hq, if_neg hq, ih]

theorem length_mangleAux (seen : List (String × ℕ)) (l : List String) :
    (mangleAux seen l).length = l.length := by
  induction l generalizing seen with
  | nil => rfl
  | cons nm rest ih =>
    unfold mangleAux
    split
    · simp [ih]
    · simp [ih]

theorem mangle_length (l : List String) : (mangle l).length = l.length :=
  length_mangleAux [] l

theorem mangleAux_nodup (l : List String) :
    ∀ seen, l.Nodup → (∀ nm ∈ l, lookupCount nm seen = 0) →
      mangleAux seen l = l := by
  induction l with
  | nil => intro seen _ _; rfl
  | cons nm rest ih =>
    intro seen hnd hz
    unfold mangleAux
    rw [if_pos (hz nm (by simp))]
    rw [ih (bump nm seen) (List.Nodup.of_cons hnd) (fun x hx => by
      rw [lookupCount_bump_ne nm x seen (by
        intro heq
        subst heq
        exact (List.nodup_cons.mp hnd).1 hx)]
      exact hz x (by simp [hx]))]

theorem mangle_nodup (l : List String) (h : l.Nodup) : mangle l = l :=
  mangleAux_nodup l [] h (fun _ _ => rfl)

/-- A parsed tabular input: the header row and the data rows, as raw fields.
This models the table a CSV byte stream denotes; CSV quoting is the identity
on the fields appearing here. -/
structure RawTable where
  header : List String
  rows : List (List String)
deriving DecidableEq

/-- A loaded frame: ordered columns, each a name with its cells. -/
abbrev DFc : Type := List (String × List Cell)

/-- The ordered column names of a frame. -/
def names (d : DFc) : List String := d.map (fun c => c.1)

/-- Python `len(df)`: the number of rows of a frame. -/
def nrows (d : DFc) : ℕ :=
  match d with
  | [] => 0
  | c :: _ => c.2.length

/-- Raw fields of column `i` (a missing field reads as empty, hence `NaN`). -/
def colFields (t : RawTable) (i : ℕ) : List String :=
  t.rows.map (fun row => row.getD i "")

/-- pandas `pd.read_csv` on a parsed table: mangle duplicate header names, then infer
and convert each column. -/
def read_csv (t : RawTable) : DFc :=
  (List.range t.header.length).map
    (fun i => ((mangle t.header).getD i "", readCol (colFields t i)))

/-- pandas `df.insert(loc, ...)`: insert a column at a position. -/
def insertAt {α : Type} : ℕ → α → List α → List α
  | 0, a, l => a :: l
  | _ + 1, a, [] => [a]
  | n + 1, a, x :: xs => x :: insertAt n a xs

/-- The synthesized StudentID column: incrementing integers from 1 in input
order (`range(1, len(df) + 1)`). -/
def sidCol (n : ℕ) : List Cell :=
  (List.range n).map (fun i => Cell.num ⟨Int.ofNat (i + 1), 0⟩)

/-- The synthesized Name column: `Student {i}` with the same 1-based index. -/
def nameCol (n : ℕ) : List Cell :=
  (List.range n).map (fun i => Cell.str ("Student " ++ natStr (i + 1)))

/-- Line 15-16 of `load_data`: insert `StudentID` at position 0 when that
exact (unstripped) name is absent. -/
def loadD1 (t : RawTable) : DFc :=
  if "StudentID" ∈ names (read_csv t) then read_csv t
  else insertAt 0 ("StudentID", sidCol (nrows (read_csv t))) (read_csv t)

/-- Line 17-18 of `load_data`: insert `Name` at position 1 when that exact
(unstripped) name is absent; `len(df)` is unchanged by the first insertion. -/
def loadD2 (t : RawTable) : DFc :=
  if "Name" ∈ names (loadD1 t) then loadD1 t
  else insertAt 1 ("Name", nameCol (nrows (read_csv t))) (loadD1 t)

/-- The function `load_data` (lines 12-20): read the table, insert `StudentID` at position 0
if that exact name is absent, insert `Name` at position 1 if that exact name is
absent, and only then strip whitespace from every column name (line 19). -/
def load_data (t : RawTable) : DFc :=
  (loadD2 t).map (fun c => (strip c.1, c.2))

/-- The function `export_data` (lines 87-94), at the level of the table its CSV bytes
denote: a header row of the column names followed by the serialized cells,
row by row, no index column. -/
def export_csv (d : DFc) : RawTable :=
  ⟨names d,
    (List.range (nrows d)).map (fun i => d.map (fun c => printCell (c.2.getD i Cell.na)))⟩

/-- The whitespace-padded header used as the concrete counterexample input:
one column named " StudentID " with a single numeric row. -/
def twsp : RawTable := ⟨[" StudentID "], [["5"]]⟩

theorem names_read_csv (t : RawTable) : names (read_csv t) = mangle t.header := by
  unfold names read_csv
  rw [List.map_map]
  have hlen : t.header.length = (mangle t.header).length := (mangle_length _).symm
  rw [hlen]
  exact range_map_getD (mangle t.header) ""

theorem names_map_strip (d : DFc) :
    names (d.map (fun c => (strip c.1, c.2))) = (names d).map strip := by
  unfold names
  rw [List.map_map, List.map_map]
  rfl

theorem insertAt_perm {α : Type} (n : ℕ) (a : α) (l : List α) :
    (insertAt n a l).Perm (a :: l) := by
  induction l generalizing n with
  | nil =>
    rcases n with _ | k
    · exact List.Perm.refl _
    · exact List.Perm.refl _
  | cons x xs ih =>
    rcases n with _ | k
    · exact List.Perm.refl _
    · show (x :: insertAt k a xs).Perm (a :: x :: xs)
      exact (List.Perm.cons x (ih k)).trans (List.Perm.swap a x xs)

theorem names_insertAt (n : ℕ) (c : String × List Cell) (d : DFc) :
    names (insertAt n c d) = insertAt n c.1 (names d) := by
  induction d generalizing n with
  | nil =>
    rcases n with _ | k <;> rfl
  | cons x xs ih =>
    rcases n with _ | k
    · rfl
    · show x.1 :: names (insertAt k c xs) = x.1 :: insertAt k c.1 (names xs)
      rw [ih k]

theorem map_insertAt {α β : Type} (f : α → β) (n : ℕ) (a : α) (l : List α) :
    (insertAt n a l).map f = insertAt n (f a) (l.map f) := by
  induction l generalizing n with
  | nil =>
    rcases n with _ | k <;> rfl
  | cons x xs ih =>
    rcases n with _ | k
    · rfl
    · show f x :: (insertAt k a xs).map f = f x :: insertAt k (f a) (xs.map f)
      rw [ih k]

/-- C8 counterexample: on the table whose single header field is
" StudentID " (whitespace-padded), load_data checks presence before stripping,
so it synthesizes a new StudentID column and the strip then produces a
duplicate "StudentID" name instead of keeping a single one. -/
theorem load_data_whitespace_counterexample :
    names (load_data twsp) = ["StudentID", "Name", "StudentID"] ∧
    ¬ (names (load_data twsp)).count "StudentID" = 1 := by
  constructor <;> decide

/-- C8 (amended): load_data strips leading and trailing whitespace from every
resulting field name, but the StudentID/Name presence checks happen before
stripping, on the raw (mangled) header names, and each check acts on its own:
if "StudentID" is absent from the raw names it inserts StudentID (incrementing
integers from 1 in input order) at position 0, and if "Name" is absent it
inserts Name ("Student i", same 1-based index) at position 1 — also when only
one of the two is missing; when both are present exactly it keeps every column
unchanged (only stripping names); and a whitespace-padded variant of
"StudentID" is not recognized, so the output then carries a duplicate
"StudentID" name. -/
theorem load_data_spec (t : RawTable) :
    (∀ nm ∈ names (load_data t), strip nm = nm) ∧
    ("StudentID" ∉ mangle t.header → "Name" ∉ mangle t.header →
      load_data t =
        ("StudentID", sidCol (nrows (read_csv t))) ::
        ("Name", nameCol (nrows (read_csv t))) ::
        (read_csv t).map (fun c => (strip c.1, c.2))) ∧
    ("StudentID" ∈ mangle t.header → "Name" ∈ mangle t.header →
      load_data t = (read_csv t).map (fun c => (strip c.1, c.2))) ∧
    ("StudentID" ∈ mangle t.header → "Name" ∉ mangle t.header →
      load_data t = insertAt 1 ("Name", nameCol (nrows (read_csv t)))
        ((read_csv t).map (fun c => (strip c.1, c.2)))) ∧
    ("StudentID" ∉ mangle t.header → "Name" ∈ mangle t.header →
      load_data t =
        ("StudentID", sidCol (nrows (read_csv t))) ::
        (read_csv t).map (fun c => (strip c.1, c.2))) ∧
    ("StudentID" ∉ mangle t.header → "StudentID" ∈ (mangle t.header).map strip →
      2 ≤ (names (load_data t)).count "StudentID") := by
  refine ⟨?_, ?_, ?_, ?_, ?_, ?_⟩
  · -- every output name is stripped
    intro nm hnm
    show strip nm = nm
    unfold load_data at hnm
    rw [names_map_strip] at hnm
    obtain ⟨x, hx, rfl⟩ := List.mem_map.mp hnm
    exact strip_idem x
  · intro hsid hname
    have hd1 : loadD1 t = ("StudentID", sidCol (nrows (read_csv t))) :: read_csv t := by
      unfold loadD1
      rw [names_read_csv, if_neg hsid]
      rfl
    have hnames1 : names (loadD1 t) = "StudentID" :: mangle t.header := by
      rw [hd1]
      show "StudentID" :: names (read_csv t) = _
      rw [names_read_csv]
    have hd2 : loadD2 t = ("StudentID", sidCol (nrows (read_csv t))) ::
        ("Name", nameCol (nrows (read_csv t))) :: read_csv t := by
      unfold loadD2
      rw [hnames1]
      rw [if_neg (by
        intro hmem
        rcases List.mem_cons.mp hmem with heq | hmem'
        · exact absurd heq (by decide)
        · exact hname hmem')]
      rw [hd1]
      rfl
    unfold load_data
    rw [hd2, List.map_cons, List.map_cons]
    rw [show strip "StudentID" = "StudentID" by decide]
    rw [show strip "Name" = "Name" by decide]
  · intro hsid hname
    have hd1 : loadD1 t = read_csv t := by
      unfold loadD1
      rw [names_read_csv, if_pos hsid]
    have hd2 : loadD2 t = read_csv t := by
      unfold loadD2
      rw [hd1, names_read_csv, if_pos hname]
    unfold load_data
    rw [hd2]
  · intro hsid hname
    have hd1 : loadD1 t = read_csv t := by
      unfold loadD1
      rw [names_read_csv, if_pos hsid]
    have hd2 : loadD2 t =
        insertAt 1 ("Name", nameCol (nrows (read_csv t))) (read_csv t) := by
      unfold loadD2
      rw [hd1, names_read_csv, if_neg hname]
    unfold load_data
    rw [hd2, map_insertAt]
    rw [show strip "Name" = "Name" by decide]
  · intro hsid hname
    have hd1 : loadD1 t =
        ("StudentID", sidCol (nrows (read_csv t))) :: read_csv t := by
      unfold loadD1
      rw [names_read_csv, if_neg hsid]
      rfl
    have hnames1 : names (loadD1 t) = "StudentID" :: mangle t.header := by
      rw [hd1]
      show "StudentID" :: names (read_csv t) = _
      rw [names_read_csv]
    have hd2 : loadD2 t = loadD1 t := by
      unfold loadD2
      rw [hnames1, if_pos (List.mem_cons_of_mem _ hname)]
    unfold load_data
    rw [hd2, hd1, List.map_cons]
    rw [show strip "StudentID" = "StudentID" by decide]
  · intro hsid hstrip
    have hd1 : loadD1 t = ("StudentID", sidCol (nrows (read_csv t))) :: read_csv t := by
      unfold loadD1
      rw [names_read_csv, if_neg hsid]
      rfl
    have hn1 : names (loadD1 t) = "StudentID" :: mangle t.header := by
      rw [hd1]
      show "StudentID" :: names (read_csv t) = _
      rw [names_read_csv]
    unfold load_data loadD2
    rw [names_map_strip, hn1]
    split
    · -- Name present: no second insert
      rw [hn1, List.map_cons]
      rw [show strip "StudentID" = "StudentID" by decide]
      rw [List.count_cons_self]
      have hpos : 0 < ((mangle t.header).map strip).count "StudentID" :=
        List.count_pos_iff.mpr hstrip
      omega
    · -- Name inserted at position 1
      have hperm : (names (insertAt 1 ("Name", nameCol (nrows (read_csv t)))
          (loadD1 t))).Perm ("Name" :: "StudentID" :: mangle t.header) := by
        rw [names_insertAt, hn1]
        exact insertAt_perm 1 "Name" _
      have hperm2 := hperm.map strip
      rw [hperm2.count_eq]
      rw [List.map_cons, List.map_cons]
      rw [show strip "Name" = "Name" by decide]
      rw [show strip "StudentID" = "StudentID" by decide]
      rw [List.count_cons_of_ne (by decide), List.count_cons_self]
      have hpos : 0 < ((mangle t.header).map strip).count "StudentID" :=
        List.count_pos_iff.mpr hstrip
      omega

/-- A table with a single plain subject column, used as the C8 witness. -/
def twmk : RawTable := ⟨["Marks"], [["7"]]⟩

/-- C8 witness: on a table with neither StudentID nor Name, load_data prepends
the synthesized StudentID and Name columns. -/
theorem load_data_spec_witness :
    ("StudentID" ∉ mangle twmk.header ∧ "Name" ∉ mangle twmk.header) ∧
    load_data twmk =
      ("StudentID", sidCol (nrows (read_csv twmk))) ::
      ("Name", nameCol (nrows (read_csv twmk))) ::
      (read_csv twmk).map (fun c => (strip c.1, c.2)) :=
  ⟨⟨by decide, by decide⟩,
    (load_data_spec twmk).2.1 (by decide) (by decide)⟩

theorem cellNum_decChars (dv : Dec) : cellNum ⟨decChars dv⟩ = Cell.num dv := by
  unfold cellNum
  rw [if_neg (by simp [printCell_num_not_na])]
  rw [show (String.mk (decChars dv)).data = decChars dv from rfl, parseDec_decChars]

theorem numericField_decChars (dv : Dec) : numericField ⟨decChars dv⟩ = true := by
  unfold numericField
  rw [show (String.mk (decChars dv)).data = decChars dv from rfl, parseDec_decChars]
  simp

theorem student_len (x : String) (s2 : String) (h : "Student " ++ x = s2)
    (h2 : s2.length < 8) : False := by
  have hl := congrArg String.length h
  rw [String.length_append] at hl
  have h8 : ("Student ").length = 8 := rfl
  rw [h8] at hl
  omega

theorem isNA_student (x : String) : isNA ("Student " ++ x) = false := by
  by_contra h
  have h' : isNA ("Student " ++ x) = true := by
    revert h
    cases isNA ("Student " ++ x) <;> simp
  have hmem : ("Student " ++ x) ∈ naStrings := by
    simpa [isNA] using h'
  simp only [naStrings, List.mem_cons, List.mem_singleton] at hmem
  rcases hmem with heq | heq | heq | heq | heq | heq | heq | heq | heq | hf
  all_goals first
    | exact student_len x _ heq (by decide)
    | exact absurd hf (List.not_mem_nil _)

theorem parseNat_cons_nondigit (c : Char) (l : List Char)
    (hd : isDigitChar c = false) : parseNat (c :: l) = none := by
  unfold parseNat
  rw [if_neg (by simp)]
  rw [if_neg (by
    intro hall
    have := List.all_eq_true.mp hall c (by simp)
    rw [hd] at this
    exact Bool.false_ne_true this)]

theorem parseDecNN_cons_nondigit (c : Char) (rest : List Char)
    (hd : isDigitChar c = false) (hdot : ¬ c = '.') :
    parseDecNN (c :: rest) = none := by
  have hsplit : splitDot (c :: rest) =
      (c :: (splitDot rest).1, (splitDot rest).2) := by
    show (if c = '.' then (([] : List Char), some rest)
      else (c :: (splitDot rest).1, (splitDot rest).2)) = _
    rw [if_neg hdot]
  unfold parseDecNN
  rw [hsplit]
  cases h2 : (splitDot rest).2 with
  | none => simp [parseNat_cons_nondigit _ _ hd]
  | some post => simp [parseNat_cons_nondigit _ _ hd]

theorem parseDec_student (x : String) : parseDec ("Student " ++ x).data = none := by
  rw [show ("Student " ++ x).data =
    'S' :: (("tudent " : String).data ++ x.data) from rfl]
  rw [parseDec_cons, if_neg (by decide)]
  exact parseDecNN_cons_nondigit 'S' _ (by decide) (by decide)

theorem length_readCol (fs : List String) : (readCol fs).length = fs.length := by
  unfold readCol
  split <;> simp

/-- The synthesized StudentID column survives a print/read round trip. -/
theorem goodCol_sidCol (n : ℕ) :
    readCol ((sidCol n).map printCell) = sidCol n := by
  unfold sidCol
  rw [List.map_map]
  unfold readCol
  rw [if_pos (by
    rw [colIsNumeric, List.all_eq_true]
    intro f hf
    obtain ⟨i, hi, rfl⟩ := List.mem_map.mp hf
    exact numericField_decChars _)]
  rw [List.map_map]
  apply List.map_congr_left
  intro i hi
  show cellNum (printCell (Cell.num ⟨Int.ofNat (i + 1), 0⟩)) =
    Cell.num ⟨Int.ofNat (i + 1), 0⟩
  exact cellNum_decChars _

/-- The synthesized Name column survives a print/read round trip. -/
theorem goodCol_nameCol (n : ℕ) :
    readCol ((nameCol n).map printCell) = nameCol n := by
  rcases n with _ | m
  · rfl
  · unfold nameCol
    rw [List.map_map]
    have hprint : ∀ i : ℕ,
        (printCell ∘ fun i : ℕ => Cell.str ("Student " ++ natStr (i + 1))) i =
        "Student " ++ natStr (i + 1) := fun i => rfl
    unfold readCol
    rw [if_neg (by
      intro hcontra
      have hall := List.all_eq_true.mp hcontra
      have h0 : (printCell ∘ fun i : ℕ => Cell.str ("Student " ++ natStr (i + 1))) 0 ∈
          (List.range (m + 1)).map
            (printCell ∘ fun i : ℕ => Cell.str ("Student " ++ natStr (i + 1))) :=
        List.mem_map_of_mem _ (by simp)
      have hnf := hall _ h0
      have hnf2 : numericField ("Student " ++ natStr 1) = true := hnf
      unfold numericField at hnf2
      rw [isNA_student, parseDec_student] at hnf2
      simp at hnf2)]
    rw [List.map_map]
    apply List.map_congr_left
    intro i hi
    show cellStr (printCell (Cell.str ("Student " ++ natStr (i + 1)))) =
      Cell.str ("Student " ++ natStr (i + 1))
    show cellStr ("Student " ++ natStr (i + 1)) = _
    unfold cellStr
    rw [if_neg (by simp [isNA_student])]

theorem read_csv_col (t : RawTable) (c : String × List Cell)
    (hc : c ∈ read_csv t) :
    ∃ fs, c.2 = readCol fs ∧ fs.length = t.rows.length := by
  unfold read_csv at hc
  obtain ⟨i, hi, rfl⟩ := List.mem_map.mp hc
  refine ⟨colFields t i, rfl, ?_⟩
  unfold colFields
  rw [List.length_map]

theorem read_csv_header_ne (t : RawTable) (c : String × List Cell)
    (hc : c ∈ read_csv t) : t.header.length ≠ 0 := by
  intro h0
  unfold read_csv at hc
  rw [h0] at hc
  simp at hc

theorem nrows_read_csv (t : RawTable) (h : t.header.length ≠ 0) :
    nrows (read_csv t) = t.rows.length := by
  obtain ⟨k, hk⟩ : ∃ k, t.header.length = k + 1 := ⟨t.header.length - 1, by omega⟩
  unfold read_csv
  rw [hk, List.range_succ_eq_map, List.map_cons]
  show (readCol (colFields t 0)).length = t.rows.length
  rw [length_readCol]
  unfold colFields
  rw [List.length_map]

theorem loadD2_cols (t : RawTable) (c : String × List Cell)
    (hc : c ∈ loadD2 t) :
    c ∈ read_csv t ∨ c.2 = sidCol (nrows (read_csv t)) ∨
      c.2 = nameCol (nrows (read_csv t)) := by
  unfold loadD2 at hc
  have hc1 : c ∈ loadD1 t ∨ c.2 = nameCol (nrows (read_csv t)) := by
    split at hc
    · exact Or.inl hc
    · have hmem := (insertAt_perm 1 _ _).mem_iff.mp hc
      rcases List.mem_cons.mp hmem with rfl | h
      · exact Or.inr rfl
      · exact Or.inl h
  rcases hc1 with hc1 | hc1
  · unfold loadD1 at hc1
    split at hc1
    · exact Or.inl hc1
    · have hmem := (insertAt_perm 0 _ _).mem_iff.mp hc1
      rcases List.mem_cons.mp hmem with rfl | h
      · exact Or.inr (Or.inl rfl)
      · exact Or.inl h
  · exact Or.inr (Or.inr hc1)

theorem loadD2_good (t : RawTable) (c : String × List Cell)
    (hc : c ∈ loadD2 t) : readCol (c.2.map printCell) = c.2 := by
  rcases loadD2_cols t c hc with h | h | h
  · obtain ⟨fs, hfs, _⟩ := read_csv_col t c h
    rw [hfs]
    exact readCol_print_readCol fs
  · rw [h]
    exact goodCol_sidCol _
  · rw [h]
    exact goodCol_nameCol _

theorem loadD2_len (t : RawTable) (c : String × List Cell)
    (hc : c ∈ loadD2 t) : c.2.length = nrows (read_csv t) := by
  rcases loadD2_cols t c hc with h | h | h
  · obtain ⟨fs, hfs, hlen⟩ := read_csv_col t c h
    rw [hfs, length_readCol, hlen, nrows_read_csv t (read_csv_header_ne t c h)]
  · rw [h]
    unfold sidCol
    rw [List.length_map, List.length_range]
  · rw [h]
    unfold nameCol
    rw [List.length_map, List.length_range]

theorem loadD1_ne_nil (t : RawTable) : loadD1 t ≠ [] := by
  unfold loadD1
  split
  · rename_i hmem
    intro h0
    rw [h0] at hmem
    exact absurd hmem (by simp [names])
  · intro h0
    have hl := (insertAt_perm 0 ("StudentID", sidCol (nrows (read_csv t)))
      (read_csv t)).length_eq
    rw [h0] at hl
    simp at hl

theorem loadD2_ne_nil (t : RawTable) : loadD2 t ≠ [] := by
  unfold loadD2
  split
  · exact loadD1_ne_nil t
  · intro h0
    have hl := (insertAt_perm 1 ("Name", nameCol (nrows (read_csv t)))
      (loadD1 t)).length_eq
    rw [h0] at hl
    simp at hl

theorem nrows_load_data (t : RawTable) :
    nrows (load_data t) = nrows (read_csv t) := by
  unfold load_data
  obtain ⟨c, rest, hc⟩ := List.exists_cons_of_ne_nil (loadD2_ne_nil t)
  rw [hc, List.map_cons]
  show c.2.length = nrows (read_csv t)
  exact loadD2_len t c (by rw [hc]; simp)

theorem load_data_cols (t : RawTable) (c : String × List Cell)
    (hc : c ∈ load_data t) :
    readCol (c.2.map printCell) = c.2 ∧ c.2.length = nrows (load_data t) := by
  unfold load_data at hc
  obtain ⟨c2, hc2, rfl⟩ := List.mem_map.mp hc
  refine ⟨loadD2_good t c2 hc2, ?_⟩
  rw [nrows_load_data]
  exact loadD2_len t c2 hc2

theorem names_loadD1_sid (t : RawTable) : "StudentID" ∈ names (loadD1 t) := by
  unfold loadD1
  split
  · rename_i h
    exact h
  · rw [names_insertAt]
    exact List.mem_cons_self _ _

theorem names_loadD2_sid (t : RawTable) : "StudentID" ∈ names (loadD2 t) := by
  unfold loadD2
  split
  · exact names_loadD1_sid t
  · rw [names_insertAt]
    exact ((insertAt_perm 1 _ _).mem_iff).mpr
      (List.mem_cons_of_mem _ (names_loadD1_sid t))

theorem names_loadD2_name (t : RawTable) : "Name" ∈ names (loadD2 t) := by
  unfold loadD2
  split
  · rename_i h
    exact h
  · rw [names_insertAt]
    exact ((insertAt_perm 1 _ _).mem_iff).mpr (List.mem_cons_self _ _)

theorem stripped_names_load (t : RawTable) :
    ∀ nm ∈ names (load_data t), strip nm = nm := by
  intro nm hnm
  unfold load_data at hnm
  rw [names_map_strip] at hnm
  obtain ⟨x, hx, rfl⟩ := List.mem_map.mp hnm
  exact strip_idem x

theorem sid_mem_load (t : RawTable) : "StudentID" ∈ names (load_data t) := by
  unfold load_data
  rw [names_map_strip]
  rw [show "StudentID" = strip "StudentID" from by decide]
  exact List.mem_map_of_mem strip (names_loadD2_sid t)

theorem name_mem_load (t : RawTable) : "Name" ∈ names (load_data t) := by
  unfold load_data
  rw [names_map_strip]
  rw [show "Name" = strip "Name" from by decide]
  exact List.mem_map_of_mem strip (names_loadD2_name t)

theorem getD_eq_getElem_of_lt {β : Type} (l : List β) (i : ℕ) (dflt : β)
    (h : i < l.length) : l.getD i dflt = l[i] := by
  rw [List.getD_eq_getElem?_getD, List.getElem?_eq_getElem h]
  rfl

theorem read_csv_export (d : DFc) (hnd : (names d).Nodup)
    (hne : ∀ c ∈ d, c.2.length = nrows d)
    (hgood : ∀ c ∈ d, readCol (c.2.map printCell) = c.2) :
    read_csv (export_csv d) = d := by
  unfold read_csv
  show (List.range (names d).length).map
    (fun i => ((mangle (names d)).getD i "",
      readCol (colFields (export_csv d) i))) = d
  rw [mangle_nodup _ hnd]
  have hlen : (names d).length = d.length := by
    unfold names
    rw [List.length_map]
  apply List.ext_getElem
  · rw [List.length_map, List.length_range, hlen]
  · intro i h1 h2
    rw [List.getElem_map, List.getElem_range]
    have hi : i < d.length := h2
    have hname_i : (names d).getD i "" = d[i].1 := by
      rw [List.getD_eq_getElem?_getD]
      unfold names
      rw [List.getElem?_map, List.getElem?_eq_getElem hi]
      rfl
    have hcol : colFields (export_csv d) i = d[i].2.map printCell := by
      show ((List.range (nrows d)).map
          (fun j => d.map (fun c => printCell (c.2.getD j Cell.na)))).map
          (fun row => row.getD i "") = _
      rw [List.map_map]
      have hcomp : ((fun row => row.getD i "") ∘
          fun j => d.map (fun c => printCell (c.2.getD j Cell.na))) =
          fun j => printCell (d[i].2.getD j Cell.na) := by
        funext j
        show (d.map (fun c => printCell (c.2.getD j Cell.na))).getD i "" = _
        rw [List.getD_eq_getElem?_getD, List.getElem?_map,
          List.getElem?_eq_getElem hi]
        rfl
      rw [hcomp]
      have hlen_i : d[i].2.length = nrows d := hne _ (List.getElem_mem hi)
      rw [show nrows d = d[i].2.length from hlen_i.symm]
      conv_rhs => rw [← range_map_getD (d[i].2) Cell.na, List.map_map]
      exact rfl
    rw [hname_i, hcol, hgood _ (List.getElem_mem hi)]

/-- C9 counterexample: the frame loaded from the whitespace-padded-header
table has duplicate "StudentID" columns; its CSV serialization re-loads with
the duplicate mangled to "StudentID.1", so field names differ and the round
trip fails. -/
theorem export_roundtrip_counterexample :
    names (load_data (export_csv (load_data twsp))) =
      ["StudentID", "Name", "StudentID.1"] ∧
    ¬ load_data (export_csv (load_data twsp)) = load_data twsp := by
  constructor <;> decide

/-- C9 (amended): for every Dataset produced by load whose column names are
pairwise distinct — which holds unless a whitespace-padded StudentID/Name
header produced a duplicate — loading the CSV serialization produced by
export yields a Dataset with identical field names, ordering and values. -/
theorem export_roundtrip (t : RawTable)
    (hnd : (names (load_data t)).Nodup) :
    load_data (export_csv (load_data t)) = load_data t := by
  have hgood : ∀ c ∈ load_data t, readCol (c.2.map printCell) = c.2 :=
    fun c hc => (load_data_cols t c hc).1
  have hlen : ∀ c ∈ load_data t, c.2.length = nrows (load_data t) :=
    fun c hc => (load_data_cols t c hc).2
  have hread : read_csv (export_csv (load_data t)) = load_data t :=
    read_csv_export (load_data t) hnd hlen hgood
  have h1 : loadD1 (export_csv (load_data t)) = load_data t := by
    unfold loadD1
    rw [hread, if_pos (sid_mem_load t)]
  have h2 : loadD2 (export_csv (load_data t)) = load_data t := by
    unfold loadD2
    rw [h1, if_pos (name_mem_load t)]
  show (loadD2 (export_csv (load_data t))).map (fun c => (strip c.1, c.2)) =
    load_data t
  rw [h2]
  have hid : ∀ c ∈ load_data t, (strip c.1, c.2) = c := by
    intro c hc
    rw [stripped_names_load t c.1 (List.mem_map_of_mem _ hc)]
  calc (load_data t).map (fun c => (strip c.1, c.2))
      = (load_data t).map id := List.map_congr_left hid
    _ = load_data t := List.map_id _

/-- C9 witness: the round trip holds on the plain single-subject table. -/
theorem export_roundtrip_witness :
    (names (load_data twmk)).Nodup ∧
    load_data (export_csv (load_data twmk)) = load_data twmk :=
  ⟨by decide, export_roundtrip twmk (by decide)⟩

end StudentMarks
